import Mathlib

/-!
# Verification of the md-browse versioned document store

Shallow embedding of the Express server in `src/unnamed/part_004`
(`MarkdownHub API`): document lifecycle with immutable version chains and
rollback, idempotent writes, heading-aware chunking, folder hierarchy with
cascading renames, soft deletion, and audit logging.

JSON tables kept as whole files (`metadata.json`, `versions.json`, ...) are
modelled as insertion-ordered association lists, matching the enumeration
order of JavaScript objects with string keys.  Handlers become pure functions
from a request and a state to an HTTP response (status code plus body) and a
successor state.  Machine-specific capabilities the server merely calls
(SHA-256, the `gray-matter` front-matter parser, the `marked` renderer) are
threaded through an `Env` record of function parameters; every theorem below
is proved for all instantiations of `Env`.
-/

namespace MdBrowse

/-! ## Insertion-ordered association lists (JavaScript object tables) -/

/-- Lookup in a JS-object table: the value at the first matching key. -/
def lookupA {α : Type} : List (String × α) → String → Option α
  | [], _ => none
  | (k', v) :: rest, k => if k' = k then some v else lookupA rest k

/-- Assignment `obj[k] = v` on a JS-object table: replaces the value at an
existing key in place (keeping enumeration order), appends otherwise. -/
def setA {α : Type} : List (String × α) → String → α → List (String × α)
  | [], k, v => [(k, v)]
  | (k', v') :: rest, k, v =>
    if k' = k then (k', v) :: rest else (k', v') :: setA rest k v

theorem lookupA_setA_self {α : Type} (m : List (String × α)) (k : String) (v : α) :
    lookupA (setA m k v) k = some v := by
  induction m with
  | nil => simp [setA, lookupA]
  | cons p rest ih =>
    by_cases h : p.1 = k
    · simp [setA, lookupA, h]
    · simp [setA, lookupA, h, ih]

theorem lookupA_setA_ne {α : Type} (m : List (String × α)) (k k' : String) (v : α)
    (h : k ≠ k') : lookupA (setA m k v) k' = lookupA m k' := by
  induction m with
  | nil => simp [setA, lookupA, h]
  | cons p rest ih =>
    by_cases hp : p.1 = k
    · have : p.1 ≠ k' := by rw [hp]; exact h
      simp [setA, lookupA, hp, this, h]
    · by_cases hp' : p.1 = k' <;>
        simp [setA, lookupA, hp, hp', ih, h, Ne.symm h]

/-! ## Pure helpers (`sha256` is an `Env` parameter; the rest are pure JS) -/

/-- `tokenEstimate(text) = Math.ceil(text.length / 4)`. -/
def tokenEstimate (s : String) : Nat := (s.length + 3) / 4

/-- Whitespace per the JavaScript regex class `\\s`. -/
def jsWs (c : Char) : Bool :=
  c = ' ' || c = '\t' || c = '\n' || c = '\u000B' || c = '\u000C' || c = '\r' ||
  c = '\u00A0' || c = '\u1680' || ('\u2000' ≤ c && c ≤ '\u200A') ||
  c = '\u2028' || c = '\u2029' || c = '\u202F' || c = '\u205F' ||
  c = '\u3000' || c = '\uFEFF'

/-- Lower-casing (`text.toLowerCase()`), done character by character. -/
def lowerStr (s : String) : String := ⟨s.data.map Char.toLower⟩

/-- `s.startsWith(pre)`. -/
def startsWithS (s pre : String) : Bool := pre.data.isPrefixOf s.data

/-- `s.endsWith(suf)`. -/
def endsWithS (s suf : String) : Bool := suf.data.reverse.isPrefixOf s.data.reverse

/-- `s.slice(n)` / `s.substring(n)` — drop the first `n` characters. -/
def dropS (s : String) (n : Nat) : String := ⟨s.data.drop n⟩

/-- Drop the last `n` characters. -/
def dropRightS (s : String) (n : Nat) : String := ⟨s.data.take (s.data.length - n)⟩

/-- JavaScript `s.trim()` (whitespace and line terminators, the `\s` class). -/
def jsTrim (s : String) : String :=
  ⟨(s.data.dropWhile jsWs).reverse.dropWhile jsWs |>.reverse⟩

/-- `array.join(sep)`. -/
def joinSep (sep : String) : List String → String
  | [] => ""
  | [l] => l
  | l :: rest => l ++ sep ++ joinSep sep rest

/-- Characters kept verbatim by `sanitizeFilename` (`[a-zA-Z0-9._-]`). -/
def fnameOk (c : Char) : Bool :=
  (('a' ≤ c && c ≤ 'z') || ('A' ≤ c && c ≤ 'Z') || ('0' ≤ c && c ≤ '9')
    || c = '.' || c = '_' || c = '-')

/-- Collapse consecutive repetitions of `x` into a single occurrence
(the effect of the regex replacement `x+ -> x`). -/
def collapseRuns (x : Char) : List Char → List Char
  | [] => []
  | c :: rest =>
    match collapseRuns x rest with
    | [] => [c]
    | d :: tail => if c = x && d = x then d :: tail else c :: d :: tail

/-- `sanitizeFilename`: non-`[a-zA-Z0-9._-]` chars become `_`, runs of `_`
collapse, leading/trailing `_` stripped, empty result falls back to
`"document"`. -/
def sanitizeFilename (name : String) : String :=
  let step1 := name.data.map fun c => if fnameOk c then c else '_'
  let step2 := collapseRuns '_' step1
  let step3 := (step2.dropWhile (· = '_')).reverse.dropWhile (· = '_') |>.reverse
  if step3.isEmpty then "document" else ⟨step3⟩

/-- `slugify`: lower-case, runs of non-`[a-z0-9]` become a single `-`,
leading/trailing `-` stripped. -/
def slugify (text : String) : String :=
  let lower := lowerStr text
  let step1 := lower.data.map fun c =>
    if ('a' ≤ c && c ≤ 'z') || ('0' ≤ c && c ≤ '9') then c else '-'
  let step2 := collapseRuns '-' step1
  ⟨(step2.dropWhile (· = '-')).reverse.dropWhile (· = '-') |>.reverse⟩

/-! ## Chunking engine (`GET /api/v1/documents/:id/chunks`) -/

/-- `body.split('\n')` — split a string at every newline, yielding `[""]`
for the empty string, exactly as in JavaScript. -/
def splitLines (s : String) : List String :=
  (s.data.splitOn '\n').map fun cs => ⟨cs⟩

/-- `array.join('\n')` — join strings with a single newline separator. -/
def joinNl : List String → String
  | [] => ""
  | [l] => l
  | l :: rest => l ++ "\n" ++ joinNl rest

/-- `line.match(/^(#{1,6})\s+(.+)/)` — returns the heading level (number of
leading `#`) and the captured heading text.  With a greedy `\s+` the capture
is everything after the whitespace run when a non-final character remains;
when the line is hashes followed only by whitespace, backtracking leaves the
last whitespace character as the capture (needs at least two). -/
def headingMatch (line : String) : Option (Nat × String) :=
  let cs := line.data
  let hs := (cs.takeWhile (· = '#')).length
  if 1 ≤ hs ∧ hs ≤ 6 then
    let rest := cs.drop hs
    let ws := (rest.takeWhile jsWs).length
    if ws = 0 then none
    else if ws < rest.length then some (hs, ⟨rest.drop ws⟩)
    else if 2 ≤ ws then some (hs, ⟨rest.drop (ws - 1)⟩)
    else none
  else none

/-- `headingPath = headingPath.slice(0, level-1); headingPath[level-1] = h` —
truncate the stack below the heading's level and write the heading at index
`level-1`, filling skipped levels with holes (JS `undefined`). -/
def setHeading (l : List (Option String)) (level : Nat) (h : String) :
    List (Option String) :=
  let t := l.take (level - 1)
  t ++ List.replicate (level - 1 - t.length) none ++ [some h]

/-- One chunk of the response (`index`, `heading_path`, `text`,
`token_count_estimate`, 1-based `start_line`/`end_line`). -/
structure Chunk where
  index : Nat
  heading_path : List (Option String)
  text : String
  token_count_estimate : Nat
  start_line : Nat
  end_line : Nat
deriving Repr, DecidableEq

/-- Mutable locals of the accumulation loop. -/
structure ChunkSt where
  chunks : List Chunk
  currentChunk : List String
  currentTokens : Nat
  chunkIndex : Nat
  startLine : Nat
  headingPath : List (Option String)
deriving Repr, DecidableEq

/-- Loop body for line `i` (0-based), mirroring the `for` loop of the
chunks handler. -/
def chunkStep (maxTok : Nat) (i : Nat) (line : String) (st : ChunkSt) : ChunkSt :=
  let hp := match headingMatch line with
    | some (level, heading) => setHeading st.headingPath level heading
    | none => st.headingPath
  let lineTokens := tokenEstimate line
  if st.currentTokens + lineTokens > maxTok ∧ st.currentChunk ≠ [] then
    let text := joinNl st.currentChunk
    let c : Chunk :=
      { index := st.chunkIndex, heading_path := hp,
        text := text, token_count_estimate := tokenEstimate text,
        start_line := st.startLine, end_line := i }
    { chunks := st.chunks ++ [c], currentChunk := [line],
      currentTokens := lineTokens, chunkIndex := st.chunkIndex + 1,
      startLine := i + 1, headingPath := hp }
  else
    { st with currentChunk := st.currentChunk ++ [line],
              currentTokens := st.currentTokens + lineTokens,
              headingPath := hp }

/-- The whole `for (let i = 0; ...)` loop over the remaining lines. -/
def chunkLoop (maxTok : Nat) : List String → Nat → ChunkSt → ChunkSt
  | [], _, st => st
  | line :: rest, i, st => chunkLoop maxTok rest (i + 1) (chunkStep maxTok i line st)

/-- The chunking engine on a document body: split into lines, accumulate,
then flush the final partial chunk. -/
def chunkBody (body : String) (maxTok : Nat) : List Chunk :=
  let lines := splitLines body
  let st := chunkLoop maxTok lines 0
    { chunks := [], currentChunk := [], currentTokens := 0,
      chunkIndex := 0, startLine := 1, headingPath := [] }
  if st.currentChunk ≠ [] then
    let text := joinNl st.currentChunk
    let c : Chunk :=
      { index := st.chunkIndex, heading_path := st.headingPath,
        text := text, token_count_estimate := tokenEstimate text,
        start_line := st.startLine, end_line := lines.length }
    st.chunks ++ [c]
  else st.chunks

/-- `Math.min(4096, Math.max(128, parseInt(req.query.max_tokens) || 1024))`:
`none` stands for a missing or unparsable `max_tokens` query value; a parsed
`0` is falsy in JavaScript and also falls back to the default `1024`. -/
def clampMaxTokens (requested : Option Int) : Int :=
  let v : Int := match requested with
    | none => 1024
    | some n => if n = 0 then 1024 else n
  min 4096 (max 128 v)

/-! ## Data model (rows of `metadata.json`, `versions.json`, `folders.json`,
`audit_logs.json`, `idempotency_keys.json`) -/

/-- A document's metadata row (`metadata.json`). -/
structure DocMeta where
  title : String
  slug : String
  description : String
  category : String
  tags : List String
  project : String
  visibility : String
  folder_id : Option String
  file_path : String
  latest_version : Nat
  checksum : String
  token_count_estimate : Nat
  created_by : String
  created_at : String
  updated_at : String
  deleted_at : Option String
deriving Repr, DecidableEq

/-- A version row (`versions.json`). -/
structure Version where
  id : String
  document_id : String
  version_number : Nat
  content_md : String
  change_note : String
  created_by : String
  created_at : String
  checksum : String
deriving Repr, DecidableEq

/-- A version as serialized by `GET /:id/versions` (drops `content_md`). -/
structure VersionOut where
  id : String
  document_id : String
  version_number : Nat
  change_note : String
  created_by : String
  created_at : String
  checksum : String
deriving Repr, DecidableEq

/-- A folder row (`folders.json`). -/
structure Folder where
  id : String
  name : String
  dir_name : String
  parent_id : Option String
  created_by : String
  created_at : String
  updated_at : String
deriving Repr, DecidableEq

/-- An audit log entry (`audit_logs.json`). -/
structure AuditEntry where
  id : String
  actor_type : String
  actor_id : String
  action : String
  resource_type : String
  resource_id : String
  meta : List (String × String)
  created_at : String
deriving Repr, DecidableEq

/-- A document as serialized to clients (`buildDocSummary` plus the optional
`content_md` / `content_html` fields some handlers attach). -/
structure DocOut where
  id : String
  title : String
  slug : String
  description : String
  category : String
  tags : List String
  project : String
  visibility : String
  latest_version : Nat
  checksum : String
  token_count_estimate : Nat
  folder_id : Option String
  created_by : String
  created_at : String
  updated_at : String
  content_md : Option String
  content_html : Option String
deriving Repr, DecidableEq

/-- Response bodies of the mutating document endpoints (these are the values
an `Idempotency-Key` stores and replays). -/
inductive RespBody where
  /-- `{documents: [...]}` — upload. -/
  | documents (docs : List DocOut)
  /-- a single document — update / rollback. -/
  | document (d : DocOut)
  /-- a folder — folder update. -/
  | folderOut (f : Folder)
  /-- `{error: {code, message, ...}}`. -/
  | errBody (code : String) (message : String)
  /-- `204 No Content`. -/
  | noContent
deriving Repr, DecidableEq

/-- A stored idempotency record (`idempotency_keys.json`). -/
structure IdemRec where
  response : RespBody
  created_at : String
deriving Repr, DecidableEq

/-- The whole persistent state: the JSON tables plus the uploads directory
(`files` maps a relative file path to its content, `dirs` lists the
directories that exist). -/
structure St where
  metadata : List (String × DocMeta)
  versions : List (String × List Version)
  folders : List (String × Folder)
  auditLogs : List AuditEntry
  idem : List (String × IdemRec)
  files : List (String × String)
  dirs : List String
deriving Repr, DecidableEq

/-- The empty state `init()` creates. -/
def St.empty : St := ⟨[], [], [], [], [], [], []⟩

/-- Front-matter extracted by `gray-matter` (`matter(raw).data`). -/
structure Frontmatter where
  title : Option String
  description : Option String
  category : Option String
  project : Option String
  tags : List String
deriving Repr, DecidableEq

/-- Capabilities the server calls but does not implement: `sha256` (hex
digest), `gray-matter` (front-matter data and body of a raw document), and
`marked` (markdown to HTML).  All theorems hold for every `Env`. -/
structure Env where
  hash : String → String
  matterData : String → Frontmatter
  matterBody : String → String
  render : String → String

/-- `buildDocSummary(id, meta)` — the serialized form, with the JS
falsy-fallbacks (`|| 'uncategorized'`, `|| 'team'`, `|| 1`, ...) spelled out. -/
def buildDocSummary (id : String) (m : DocMeta) : DocOut :=
  { id := id
    title := m.title
    slug := if m.slug = "" then slugify (if m.title = "" then id else m.title) else m.slug
    description := m.description
    category := if m.category = "" then "uncategorized" else m.category
    tags := m.tags
    project := m.project
    visibility := if m.visibility = "" then "team" else m.visibility
    latest_version := if m.latest_version = 0 then 1 else m.latest_version
    checksum := m.checksum
    token_count_estimate := m.token_count_estimate
    folder_id := match m.folder_id with
      | some f => if f = "" then none else some f
      | none => none
    created_by := m.created_by
    created_at := m.created_at
    updated_at := m.updated_at
    content_md := none
    content_html := none }

/-! ## Small request-handling helpers -/

/-- Delete a key from a JS-object table (`delete obj[k]`, and also the effect
of `fs.rename` on the source path). -/
def removeA {α : Type} (m : List (String × α)) (k : String) : List (String × α) :=
  m.filter fun p => p.1 ≠ k

/-- `path.basename(p)` — the component after the last `/`. -/
def basename (p : String) : String :=
  ⟨(p.data.splitOn '/').getLastD []⟩

/-- `path.basename(f, '.md')` — strip a final `.md`. -/
def stripMd (f : String) : String :=
  if endsWithS f ".md" then dropRightS f 3 else f

/-- `originalname.replace(/\.(md|markdown)$/i, '')`. -/
def stripMarkdownExt (f : String) : String :=
  if endsWithS (lowerStr f) ".markdown" then dropRightS f 9
  else if endsWithS (lowerStr f) ".md" then dropRightS f 3
  else f

/-- JavaScript `haystack.includes(needle)`. -/
def strIncludes (hay sub : String) : Bool :=
  decide (List.IsInfix sub.data hay.data)

/-- JavaScript `haystack.indexOf(needle)` (as an `Option`). -/
def strIndexOf (hay sub : String) : Option Nat :=
  (List.range (hay.data.length + 1)).find? fun i => sub.data.isPrefixOf (hay.data.drop i)

/-- `tags.split(',').map(t => t.trim()).filter(Boolean)`. -/
def splitCommaTrim (t : String) : List String :=
  ((t.data.splitOn ',').map fun cs => jsTrim (String.mk cs)).filter (· ≠ "")

/-- `fs.access` — does a path exist in the uploads directory (as a directory
or as a stored file)? -/
def pathExists (s : St) (p : String) : Bool :=
  s.dirs.contains p || (lookupA s.files p).isSome

/-- `parentDirName ? parentDirName + '/' + leaf : leaf`. -/
def fullPath (parent : Option String) (leaf : String) : String :=
  match parent with
  | some p => if p = "" then leaf else p ++ "/" ++ leaf
  | none => leaf

/-- The collision loop of `uniqueDirName`: try `base`, then `base_2`,
`base_3`, ... until the path is free.  The JS `while (true)` terminates as
soon as a suffix is unused; the fuel (more candidates than existing paths)
is always sufficient for that. -/
def uniqueLeaf (s : St) (parent : Option String) (base : String) :
    Nat → String → Nat → String
  | 0, leaf, _ => fullPath parent leaf
  | fuel + 1, leaf, i =>
    if pathExists s (fullPath parent leaf) then
      uniqueLeaf s parent base fuel (base ++ "_" ++ toString i) (i + 1)
    else fullPath parent leaf

/-- `uniqueDirName(name, parentDirName)`. -/
def uniqueDirName (s : St) (name : String) (parent : Option String) : String :=
  let base := sanitizeFilename name
  uniqueLeaf s parent base (s.dirs.length + s.files.length + 1) base 2

/-- Effect of `fs.rename(DOCS_DIR/old, DOCS_DIR/new)` on a recorded path:
the directory itself and everything beneath it move. -/
def renamePath (old new p : String) : String :=
  if p = old then new
  else if startsWithS p (old ++ "/") then new ++ dropS p old.length
  else p

/-- `meta.file_path || id + '.md'` (`getDocContent`'s path choice). -/
def docFilePath (id : String) (m : DocMeta) : String :=
  if m.file_path = "" then id ++ ".md" else m.file_path

/-- `getDocContent(id, meta)` — read the document's raw file. -/
def getDocContent (s : St) (id : String) (m : DocMeta) : Option String :=
  lookupA s.files (docFilePath id m)

/-- `appendAuditLog(...)` (the successful case: read the log, push, write). -/
def appendAudit (s : St) (e : AuditEntry) : St :=
  { s with auditLogs := s.auditLogs ++ [e] }

/-- `saveIdempotencyResult(key, response)`. -/
def saveIdem (s : St) (key : Option String) (resp : RespBody) (now : String) : St :=
  match key with
  | none => s
  | some k => { s with idem := setA s.idem k ⟨resp, now⟩ }

/-- `checkIdempotency` — the stored response for a key, if any. -/
def checkIdem (s : St) (key : Option String) : Option RespBody :=
  match key with
  | none => none
  | some k => (lookupA s.idem k).map (·.response)

/-! ## Mutating document endpoints -/

/-- Inputs of `POST /api/v1/documents/upload`: the idempotency key, the file
multer stored (its generated `filename`, the client's `originalname`, and the
raw content), the form fields, and the request-scoped values the handler
draws from the outside world (actor, clock, generated UUIDs). -/
structure UploadReq where
  idemKey : Option String
  filename : String
  originalname : String
  rawContent : String
  tags : Option String
  folder_id : Option String
  description : Option String
  category : Option String
  project : Option String
  visibility : Option String
  actorId : String
  now : String
  versionUuid : String
  auditUuid : String
deriving Repr, DecidableEq

/-- `POST /api/v1/documents/upload` (`authMiddleware, checkIdempotency,
upload.single('file')`, then the handler).  On an idempotency replay the
stored response is returned with status 200 before multer runs; otherwise
the document row, the initial version, the audit entry and the idempotency
record are written and the handler answers 201. -/
def uploadDoc (env : Env) (req : UploadReq) (s : St) : (Nat × RespBody) × St :=
  match checkIdem s req.idemKey with
  | some stored => ((200, stored), s)
  | none =>
    let s := { s with files := setA s.files req.filename req.rawContent }
    let id := stripMd req.filename
    let fm := env.matterData req.rawContent
    let body := env.matterBody req.rawContent
    let checksum := env.hash req.rawContent
    let title := match fm.title with
      | some t => if t = "" then stripMarkdownExt req.originalname else t
      | none => stripMarkdownExt req.originalname
    let tags := match req.tags with
      | some t => if t = "" then fm.tags else splitCommaTrim t
      | none => fm.tags
    let folderReq : Option String := match req.folder_id with
      | some f => if f = "" then none else some f
      | none => none
    let folder_id : Option String := match folderReq with
      | some fid => if (lookupA s.folders fid).isSome then some fid else none
      | none => none
    let folderDirName : Option String := match folderReq with
      | some fid =>
        match lookupA s.folders fid with
        | some f => some (if f.dir_name = "" then fid else f.dir_name)
        | none => none
      | none => none
    let file_path := match folder_id, folderDirName with
      | some _, some dirName => dirName ++ "/" ++ req.filename
      | _, _ => req.filename
    let s : St := { s with
      dirs := match folder_id, folderDirName with
        | some _, some dirName =>
          if s.dirs.contains dirName then s.dirs else s.dirs ++ [dirName]
        | _, _ => s.dirs,
      files := match folder_id, folderDirName with
        | some _, some dirName =>
          setA (removeA s.files req.filename)
            (dirName ++ "/" ++ req.filename) req.rawContent
        | _, _ => s.files }
    let meta : DocMeta :=
      { title := title
        slug := slugify title
        description := ((fm.description.filter (· ≠ "")) <|>
          (req.description.filter (· ≠ ""))).getD ""
        category := ((req.category.filter (· ≠ "")) <|>
          (fm.category.filter (· ≠ ""))).getD "uncategorized"
        tags := tags
        project := ((req.project.filter (· ≠ "")) <|>
          (fm.project.filter (· ≠ ""))).getD ""
        visibility := (req.visibility.filter (· ≠ "")).getD "team"
        folder_id := folder_id
        file_path := file_path
        latest_version := 1
        checksum := checksum
        token_count_estimate := tokenEstimate body
        created_by := req.actorId
        created_at := req.now
        updated_at := req.now
        deleted_at := none }
    let v1 : Version :=
      { id := req.versionUuid, document_id := id, version_number := 1,
        content_md := req.rawContent, change_note := "Initial upload",
        created_by := req.actorId, created_at := req.now, checksum := checksum }
    let s := { s with metadata := setA s.metadata id meta,
                      versions := setA s.versions id [v1] }
    let s := appendAudit s
      { id := req.auditUuid, actor_type := "user", actor_id := req.actorId,
        action := "document.create", resource_type := "document",
        resource_id := id, meta := [("title", title)], created_at := req.now }
    let doc := { buildDocSummary id meta with
      content_md := some body, content_html := some (env.render body) }
    let resp := RespBody.documents [doc]
    let s := saveIdem s req.idemKey resp req.now
    ((201, resp), s)

/-- Inputs of `PUT /api/v1/documents/:id`.  `folder_id` distinguishes an
absent field (`none`), an explicit `null` (`some none`) and a folder id
(`some (some fid)`), mirroring the handler's `undefined`/`null` checks. -/
structure UpdateReq where
  idemKey : Option String
  id : String
  title : Option String
  content_md : Option String
  tags : Option (List String)
  project : Option String
  visibility : Option String
  change_note : Option String
  description : Option String
  category : Option String
  folder_id : Option (Option String)
  actorType : String
  actorId : String
  now : String
  versionUuid : String
  auditUuid : String
deriving Repr, DecidableEq

/-- `PUT /api/v1/documents/:id` (after scope check and `checkIdempotency`).
A supplied `content_md` appends a version numbered `latest_version + 1` and
advances `latest_version`, `checksum` and `token_count_estimate`;
metadata-only updates touch no version.  An unknown non-null `folder_id`
fails `validation_error`. -/
def updateDoc (env : Env) (req : UpdateReq) (s : St) : (Nat × RespBody) × St :=
  match checkIdem s req.idemKey with
  | some stored => ((200, stored), s)
  | none =>
    match lookupA s.metadata req.id with
    | none => ((404, .errBody "not_found" "Document not found"), s)
    | some meta =>
      if meta.deleted_at.isSome then
        ((404, .errBody "not_found" "Document not found"), s)
      else if (match req.folder_id with
          | some (some f) => (lookupA s.folders f).isNone
          | _ => false) then
        ((400, .errBody "validation_error" "Folder not found"), s)
      else
        let currentFilePath := docFilePath req.id meta
        let filename := basename currentFilePath
        let newFolderId : Option String := match req.folder_id with
          | some f => f
          | none => meta.folder_id
        let newFolderDirName : Option String := match newFolderId with
          | some fid =>
            if fid = "" then none
            else some (match lookupA s.folders fid with
              | some f => if f.dir_name = "" then fid else f.dir_name
              | none => fid)
          | none => none
        let newFilePath := match newFolderDirName with
          | some d => d ++ "/" ++ filename
          | none => filename
        let checksum := match req.content_md with
          | some c => env.hash c
          | none => meta.checksum
        let s : St := { s with
          files := match req.content_md with
            | some c => setA s.files currentFilePath c
            | none => s.files }
        let folderChanged : Prop :=
          req.folder_id.isSome ∧ req.folder_id.get! ≠ meta.folder_id
        let s : St := { s with
          dirs :=
            if folderChanged then
              match newFolderDirName with
              | some d => if s.dirs.contains d then s.dirs else s.dirs ++ [d]
              | none => s.dirs
            else s.dirs,
          files :=
            if folderChanged then
              setA (removeA s.files currentFilePath) newFilePath
                ((lookupA s.files currentFilePath).getD "")
            else s.files }
        let vs0 := (lookupA s.versions req.id).getD []
        let newVersionNumber := meta.latest_version + 1
        let vs1 := match req.content_md with
          | some c =>
            let newv : Version :=
              { id := req.versionUuid, document_id := req.id,
                version_number := newVersionNumber, content_md := c,
                change_note := req.change_note.getD "",
                created_by := req.actorId, created_at := req.now,
                checksum := checksum }
            vs0 ++ [newv]
          | none => vs0
        let s := { s with versions := setA s.versions req.id vs1 }
        let meta1 : DocMeta :=
          { meta with
            title := req.title.getD meta.title
            slug := match req.title with
              | some t => slugify t
              | none => meta.slug
            description := req.description.getD meta.description
            category := req.category.getD meta.category
            tags := req.tags.getD meta.tags
            project := req.project.getD meta.project
            visibility := req.visibility.getD meta.visibility
            folder_id := match req.folder_id with
              | some f => f
              | none => meta.folder_id
            file_path := newFilePath
            latest_version := match req.content_md with
              | some _ => newVersionNumber
              | none => meta.latest_version
            checksum := checksum
            token_count_estimate := match req.content_md with
              | some c => tokenEstimate c
              | none => meta.token_count_estimate
            updated_at := req.now }
        let s := { s with metadata := setA s.metadata req.id meta1 }
        let s := appendAudit s
          { id := req.auditUuid, actor_type := req.actorType,
            actor_id := req.actorId, action := "document.update",
            resource_type := "document", resource_id := req.id,
            meta := [("title", meta1.title)], created_at := req.now }
        let updatedContent := match req.content_md with
          | some c => c
          | none => ((getDocContent s req.id meta1).map env.matterBody).getD ""
        let doc := { buildDocSummary req.id meta1 with
          content_md := some updatedContent,
          content_html := some (env.render updatedContent) }
        let resp := RespBody.document doc
        let s := saveIdem s req.idemKey resp req.now
        ((200, resp), s)

/-- Inputs of `POST /api/v1/documents/:id/rollback`. -/
structure RollbackReq where
  idemKey : Option String
  id : String
  target_version : Nat
  change_note : Option String
  actorId : String
  now : String
  versionUuid : String
  auditUuid : String
deriving Repr, DecidableEq

/-- `POST /api/v1/documents/:id/rollback`: copy the target version's content
into a brand-new version numbered `latest_version + 1` (a missing
`target_version` — including the falsy `0` — fails `validation_error`). -/
def rollbackDoc (env : Env) (req : RollbackReq) (s : St) : (Nat × RespBody) × St :=
  match checkIdem s req.idemKey with
  | some stored => ((200, stored), s)
  | none =>
    if req.target_version = 0 then
      ((400, .errBody "validation_error" "target_version is required"), s)
    else
      match lookupA s.metadata req.id with
      | none => ((404, .errBody "not_found" "Document not found"), s)
      | some meta =>
        if meta.deleted_at.isSome then
          ((404, .errBody "not_found" "Document not found"), s)
        else
          let vs := (lookupA s.versions req.id).getD []
          match vs.find? (fun v => v.version_number = req.target_version) with
          | none =>
            ((400, .errBody "validation_error"
              ("Version " ++ toString req.target_version ++ " not found")), s)
          | some targetVer =>
            let newVersionNumber := meta.latest_version + 1
            let newChecksum := env.hash targetVer.content_md
            let s := { s with
              files := setA s.files (docFilePath req.id meta) targetVer.content_md }
            let newv : Version :=
              { id := req.versionUuid, document_id := req.id,
                version_number := newVersionNumber,
                content_md := targetVer.content_md,
                change_note := req.change_note.getD
                  ("Rollback to version " ++ toString req.target_version),
                created_by := req.actorId, created_at := req.now,
                checksum := newChecksum }
            let s := { s with versions := setA s.versions req.id (vs ++ [newv]) }
            let meta1 := { meta with latest_version := newVersionNumber,
                                     checksum := newChecksum,
                                     updated_at := req.now }
            let s := { s with metadata := setA s.metadata req.id meta1 }
            let s := appendAudit s
              { id := req.auditUuid, actor_type := "user",
                actor_id := req.actorId, action := "document.rollback",
                resource_type := "document", resource_id := req.id,
                meta := [("target_version", toString req.target_version),
                         ("new_version", toString newVersionNumber)],
                created_at := req.now }
            let body := env.matterBody targetVer.content_md
            let doc := { buildDocSummary req.id meta1 with
              content_md := some targetVer.content_md,
              content_html := some (env.render body) }
            let resp := RespBody.document doc
            let s := saveIdem s req.idemKey resp req.now
            ((200, resp), s)

/-- `DELETE /api/v1/documents/:id` (soft delete).  `auditOk` injects the
outcome of the audit-log file write: the handler `await`s `appendAuditLog`
inside its `try` block, so a failed write surfaces as the `catch`'s
`internal_error` response — after the soft delete has already been
persisted. -/
def deleteDoc (auditOk : Bool) (id actorId now auditUuid : String) (s : St) :
    (Nat × RespBody) × St :=
  match lookupA s.metadata id with
  | none => ((404, .errBody "not_found" "Document not found"), s)
  | some meta =>
    if meta.deleted_at.isSome then
      ((404, .errBody "not_found" "Document not found"), s)
    else
      let s := { s with
        metadata := setA s.metadata id { meta with deleted_at := some now } }
      if auditOk then
        let s := appendAudit s
          { id := auditUuid, actor_type := "user", actor_id := actorId,
            action := "document.delete", resource_type := "document",
            resource_id := id, meta := [], created_at := now }
        ((204, .noContent), s)
      else
        ((500, .errBody "internal_error" "audit log write failed"), s)

/-! ## Read endpoints -/

/-- Query parameters of `GET /api/v1/documents`. -/
structure ListReq where
  tag : Option String
  project : Option String
  q : Option String
  folder_id : Option String
  sort_by : Option String
  sort_order : Option String
  page : Option Int
  page_size : Option Int
deriving Repr, DecidableEq

/-- A paginated listing (`{data, pagination: {page, page_size, total}}`). -/
structure ListResp (α : Type) where
  data : List α
  page : Nat
  page_size : Nat
  total : Nat
deriving Repr, DecidableEq

/-- `Math.max(1, parseInt(req.query.page) || 1)` (`0` and `NaN` are falsy). -/
def pageOf (p : Option Int) : Nat :=
  (max 1 (match p with | none => 1 | some n => if n = 0 then 1 else n)).toNat

/-- `Math.min(100, Math.max(1, parseInt(req.query.page_size) || 20))`. -/
def pageSizeOf (p : Option Int) : Nat :=
  (min 100 (max 1 (match p with | none => 20 | some n => if n = 0 then 20 else n))).toNat

/-- The sort field selected by `sort_by` (anything but `created_at` and
`title` falls back to `updated_at`), read off a serialized document with the
`|| ''` fallback (all three fields are total strings here). -/
def sortFieldVal (sort_by : String) (d : DocOut) : String :=
  if sort_by = "created_at" then d.created_at
  else if sort_by = "title" then d.title
  else d.updated_at

/-- Lexicographic (code-point) string order, the model of
`localeCompare(a, b) <= 0`. -/
def charListLe : List Char → List Char → Bool
  | [], _ => true
  | _ :: _, [] => false
  | a :: as, b :: bs => if a = b then charListLe as bs else decide (a < b)

/-- `a.localeCompare(b) <= 0`, modelled as code-point lexicographic order. -/
def strLe (a b : String) : Bool := charListLe a.data b.data

theorem strLe_refl (a : String) : strLe a a = true := by
  unfold strLe
  induction a.data with
  | nil => rfl
  | cons c cs ih => simp [charListLe, ih]

/-- The comparator `(a, b) => av.localeCompare(bv)` (resp. its flip for
descending order) induces this boolean "may come first" relation; JS
`Array.prototype.sort` is a stable sort for it. -/
def sortLe (sort_by : String) (asc : Bool) (a b : DocOut) : Bool :=
  if asc then strLe (sortFieldVal sort_by a) (sortFieldVal sort_by b)
  else strLe (sortFieldVal sort_by b) (sortFieldVal sort_by a)

/-- One conditional filter of the listing handler: a skipped filter
(falsy query value) is `none`, an applied one carries its predicate. -/
def filterStage (p : Option (DocOut → Bool)) (docs : List DocOut) :
    List DocOut :=
  match p with
  | some f => docs.filter f
  | none => docs

/-- `if (tag) docs = docs.filter(d => d.tags?.includes(tag))`. -/
def tagPred (tag : Option String) : Option (DocOut → Bool) :=
  match tag with
  | some t => if t = "" then none else some fun d => d.tags.contains t
  | none => none

/-- `if (project) docs = docs.filter(d => d.project === project)`. -/
def projectPred (project : Option String) : Option (DocOut → Bool) :=
  match project with
  | some pr => if pr = "" then none else some fun d => d.project = pr
  | none => none

/-- `if (folder_id !== undefined)` — `'root'` and `''` select root
documents, anything else matches the folder id. -/
def folderPred (folder_id : Option String) : Option (DocOut → Bool) :=
  match folder_id with
  | some fid =>
    if fid = "root" ∨ fid = "" then some fun d => d.folder_id = none
    else some fun d => d.folder_id = some fid
  | none => none

/-- `if (q)` — free-text match on lower-cased title, description or tags. -/
def qPred (q : Option String) : Option (DocOut → Bool) :=
  match q with
  | some qq =>
    if qq = "" then none
    else
      some fun d =>
        strIncludes (lowerStr d.title) (lowerStr qq) ||
        strIncludes (lowerStr d.description) (lowerStr qq) ||
        d.tags.any fun t => strIncludes (lowerStr t) (lowerStr qq)
  | none => none

/-- The filter pipeline of the listing handler, before sorting: live
documents, serialized, then the four conditional filters in handler
order. -/
def listFiltered (req : ListReq) (s : St) : List DocOut :=
  filterStage (qPred req.q) (filterStage (folderPred req.folder_id)
    (filterStage (projectPred req.project) (filterStage (tagPred req.tag)
      ((s.metadata.filter fun p => p.2.deleted_at = none).map
        fun p => buildDocSummary p.1 p.2))))

/-- `GET /api/v1/documents` — filter, stable-sort, paginate.  JavaScript's
`Array.prototype.sort` is a stable sort for the comparator; for the total
preorder `sortLe` induces, the stable-sorted permutation is unique, so it is
modelled by the (structurally recursive, provably stable) insertion sort. -/
def listDocs (req : ListReq) (s : St) : ListResp DocOut :=
  let page := pageOf req.page
  let page_size := pageSizeOf req.page_size
  let sort_by := (req.sort_by.getD "updated_at")
  let asc := req.sort_order = some "asc"
  let docs := (listFiltered req s).insertionSort
    fun a b => sortLe sort_by (decide asc) a b = true
  { data := (docs.drop ((page - 1) * page_size)).take page_size,
    page := page, page_size := page_size, total := docs.length }

/-- `GET /api/v1/search` — a hit is a serialized document plus a snippet. -/
structure SearchHit where
  doc : DocOut
  snippet : String
deriving Repr, DecidableEq

/-- The snippet around the first occurrence of the query inside a matching
content: `content.substring(max(0, idx-50), min(len, idx+q.length+50))`
with newlines flattened to spaces. -/
def contentSnippet (content q : String) (idx : Nat) : String :=
  let a := idx - 50
  let b := min content.data.length (idx + q.length + 50)
  ⟨((content.data.drop a).take (b - a)).map fun c => if c = '\n' then ' ' else c⟩

/-- Match one metadata entry against the lowered query: title first, then
tags, then (if the file is readable) the raw content. -/
def searchEntry (s : St) (q lower : String) (id : String) (m : DocMeta) :
    Option SearchHit :=
  if m.deleted_at.isSome then none
  else if strIncludes (lowerStr m.title) lower then
    some ⟨buildDocSummary id m, m.title⟩
  else if m.tags.any (fun t => strIncludes (lowerStr t) lower) then
    some ⟨buildDocSummary id m, joinSep ", " m.tags⟩
  else
    match getDocContent s id m with
    | some content =>
      match strIndexOf (lowerStr content) lower with
      | some idx => some ⟨buildDocSummary id m, contentSnippet content q idx⟩
      | none => none
    | none => none

/-- `GET /api/v1/search` (requires a non-empty `q`; `400` otherwise). -/
def searchDocs (q : Option String) (page page_size : Option Int) (s : St) :
    (Nat × Option (ListResp SearchHit)) :=
  match q with
  | none => (400, none)
  | some qq =>
    if qq = "" then (400, none)
    else
      let lower := lowerStr qq
      let results := s.metadata.filterMap fun p => searchEntry s qq lower p.1 p.2
      let pg := pageOf page
      let ps := pageSizeOf page_size
      (200, some { data := (results.drop ((pg - 1) * ps)).take ps,
                   page := pg, page_size := ps, total := results.length })

/-- `v` as serialized by the versions endpoint (no `content_md`). -/
def toVersionOut (v : Version) : VersionOut :=
  { id := v.id, document_id := v.document_id,
    version_number := v.version_number, change_note := v.change_note,
    created_by := v.created_by, created_at := v.created_at,
    checksum := v.checksum }

/-- `GET /api/v1/documents/:id/versions` — 404 only when the id has no
metadata row at all; a soft-deleted document's chain is still served. -/
def listVersions (id : String) (s : St) :
    Nat × Option (String × List VersionOut) :=
  match lookupA s.metadata id with
  | none => (404, none)
  | some _ =>
    (200, some (id, ((lookupA s.versions id).getD []).map toVersionOut))

/-! ## Folder rename (`PUT /api/v1/folders/:id`) -/

/-- The `while (cur)` ancestor walk of the circular-reference check: does
the chain starting at `cur` reach `id`?  The JS loop has no fuel; on the
acyclic tables the server maintains it stops within `#folders` steps, which
the fuel covers. -/
def reachesId (folders : List (String × Folder)) (id : String) :
    Nat → Option String → Bool
  | 0, _ => false
  | _, none => false
  | fuel + 1, some cur =>
    if cur = "" then false
    else if cur = id then true
    else reachesId folders id fuel ((lookupA folders cur).bind (·.parent_id))

/-- `folders[id].parent_id ? folders[folders[id].parent_id]?.dir_name : null`
— the parent's directory name used as the prefix for a recomputed
`dir_name`. -/
def folderParentDir (folders : List (String × Folder)) (f0 : Folder) :
    Option String :=
  match f0.parent_id with
  | some pid => if pid = "" then none else (lookupA folders pid).map (·.dir_name)
  | none => none

/-- Inputs of `PUT /api/v1/folders/:id` (rename and/or reparent); as in
`UpdateReq`, `parent_id` separates absent / `null` / an id. -/
structure FolderUpdateReq where
  id : String
  name : Option String
  parent_id : Option (Option String)
  actorId : String
  now : String
  auditUuid : String
deriving Repr, DecidableEq

/-- The `dir_name` the rename computes: recomputed (unique among the
existing paths) when a name is supplied and its trim differs from the
current name, untouched otherwise. -/
def renameNewDir (s : St) (req : FolderUpdateReq) (f0 : Folder) : String :=
  match req.name with
  | some n =>
    if jsTrim n ≠ f0.name then
      uniqueDirName s (jsTrim n) (folderParentDir s.folders f0)
    else f0.dir_name
  | none => f0.dir_name

/-- `PUT /api/v1/folders/:id`.  A name change recomputes `dir_name` and
cascades by *path prefix*: every other folder whose `dir_name` starts with
`oldDirName + '/'` and every live document whose `file_path` starts with
`oldDirName + '/'` gets the prefix rewritten; the on-disk directory is
renamed likewise. -/
def renameFolder (req : FolderUpdateReq) (s : St) : (Nat × RespBody) × St :=
  let folders := s.folders
  match lookupA folders req.id with
  | none => ((404, .errBody "not_found" "Folder not found"), s)
  | some f0 =>
    if (match req.parent_id with
        | some (some pid) => (lookupA folders pid).isNone
        | _ => false) then
      ((400, .errBody "validation_error" "Parent folder not found"), s)
    else if (match req.parent_id with
        | some (some pid) =>
          reachesId folders req.id (folders.length + 1) (some pid)
        | _ => false) then
      ((400, .errBody "validation_error"
        "Circular folder reference not allowed"), s)
    else
      let oldDirName := f0.dir_name
      let newName := match req.name with
        | some n => jsTrim n
        | none => f0.name
      let newDirName := renameNewDir s req f0
      let f1 : Folder :=
        { f0 with
          name := if req.name.isSome then newName else f0.name
          dir_name := if req.name.isSome then newDirName else f0.dir_name
          parent_id := match req.parent_id with
            | some p => p
            | none => f0.parent_id
          updated_at := req.now }
      let folders1 := setA folders req.id f1
      let dirChanged := req.name.isSome ∧ newDirName ≠ oldDirName
      let folders2 :=
        if dirChanged then
          folders1.map fun p =>
            (p.1,
              if p.1 ≠ req.id ∧ p.2.dir_name ≠ "" ∧
                  startsWithS p.2.dir_name (oldDirName ++ "/") then
                { p.2 with
                  dir_name := newDirName ++ dropS p.2.dir_name oldDirName.length }
              else p.2)
        else folders1
      let s : St := { s with
        folders := folders2,
        dirs :=
          if dirChanged then s.dirs.map (renamePath oldDirName newDirName)
          else s.dirs,
        files :=
          if dirChanged then
            s.files.map fun p => (renamePath oldDirName newDirName p.1, p.2)
          else s.files,
        metadata :=
          if dirChanged then
            s.metadata.map fun p =>
              (p.1,
                if p.2.deleted_at = none ∧ p.2.file_path ≠ "" ∧
                    startsWithS p.2.file_path (oldDirName ++ "/") then
                  { p.2 with
                    file_path := newDirName ++ dropS p.2.file_path oldDirName.length }
                else p.2)
          else s.metadata }
      let s := appendAudit s
        { id := req.auditUuid, actor_type := "user", actor_id := req.actorId,
          action := "folder.update", resource_type := "folder",
          resource_id := req.id,
          meta := [("name", newName)], created_at := req.now }
      ((200, .folderOut ((lookupA folders2 req.id).getD f1)), s)

/-! ## Reachable states and the version-chain invariant (C1) -/

/-- One public mutating operation of the document store (upload/create,
update, rollback), as a step relation between states. -/
inductive Step (env : Env) : St → St → Prop
  | upload (req : UploadReq) (s : St) : Step env s (uploadDoc env req s).2
  | update (req : UpdateReq) (s : St) : Step env s (updateDoc env req s).2
  | rollback (req : RollbackReq) (s : St) : Step env s (rollbackDoc env req s).2

/-- States reachable from the empty store `init()` creates. -/
inductive Reachable (env : Env) : St → Prop
  | init : Reachable env St.empty
  | step {s s' : St} : Reachable env s → Step env s s' → Reachable env s'

/-- The version-chain invariant: every document's chain carries exactly the
version numbers `1, 2, ..., latest_version` in order — strictly increasing
from 1 with no gaps, with `latest_version` the maximum. -/
def VersionInv (s : St) : Prop :=
  ∀ id meta, lookupA s.metadata id = some meta →
    ∃ vs, lookupA s.versions id = some vs ∧
      vs.map (·.version_number) = List.range' 1 meta.latest_version ∧
      1 ≤ meta.latest_version

theorem versionInv_empty : VersionInv St.empty := by
  intro id meta h
  simp [St.empty, lookupA] at h

theorem saveIdem_metadata (s : St) (k : Option String) (r : RespBody) (n : String) :
    (saveIdem s k r n).metadata = s.metadata := by
  cases k <;> rfl

theorem saveIdem_versions (s : St) (k : Option String) (r : RespBody) (n : String) :
    (saveIdem s k r n).versions = s.versions := by
  cases k <;> rfl

theorem saveIdem_auditLogs (s : St) (k : Option String) (r : RespBody) (n : String) :
    (saveIdem s k r n).auditLogs = s.auditLogs := by
  cases k <;> rfl

theorem versionInv_upload (env : Env) (req : UploadReq) (s : St)
    (hInv : VersionInv s) : VersionInv (uploadDoc env req s).2 := by
  cases h : checkIdem s req.idemKey with
  | some stored =>
    have : (uploadDoc env req s).2 = s := by
      unfold uploadDoc; rw [h]
    rw [this]; exact hInv
  | none =>
    intro id meta hm
    simp only [uploadDoc, h, saveIdem_metadata, saveIdem_versions, appendAudit] at hm ⊢
    by_cases hid : id = stripMd req.filename
    · subst hid
      rw [lookupA_setA_self] at hm
      obtain rfl := Option.some.inj hm
      exact ⟨_, lookupA_setA_self .., rfl, Nat.le_refl 1⟩
    · rw [lookupA_setA_ne _ _ _ _ (fun hc => hid hc.symm)] at hm
      obtain ⟨vs, hvs, hmap, hle⟩ := hInv id meta hm
      exact ⟨vs, by rw [lookupA_setA_ne _ _ _ _ (fun hc => hid hc.symm)]; exact hvs,
        hmap, hle⟩

theorem versionInv_update (env : Env) (req : UpdateReq) (s : St)
    (hInv : VersionInv s) : VersionInv (updateDoc env req s).2 := by
  cases h : checkIdem s req.idemKey with
  | some stored =>
    have heq : (updateDoc env req s).2 = s := by
      unfold updateDoc; rw [h]
    rw [heq]; exact hInv
  | none =>
    cases hmeta : lookupA s.metadata req.id with
    | none =>
      have heq : (updateDoc env req s).2 = s := by
        unfold updateDoc; rw [h, hmeta]
      rw [heq]; exact hInv
    | some meta =>
      by_cases hdel : meta.deleted_at.isSome
      · have heq : (updateDoc env req s).2 = s := by
          unfold updateDoc; rw [h, hmeta]; simp [hdel]
        rw [heq]; exact hInv
      · by_cases hfol : (match req.folder_id with
          | some (some f) => (lookupA s.folders f).isNone
          | _ => false : Bool)
        · have heq : (updateDoc env req s).2 = s := by
            unfold updateDoc; rw [h, hmeta]; simp [hdel, hfol]
          rw [heq]; exact hInv
        · obtain ⟨vs, hvs, hmap, hL⟩ := hInv req.id meta hmeta
          unfold updateDoc
          rw [h, hmeta]
          simp only [hdel, hfol, Bool.false_eq_true, if_false, if_true,
            Bool.not_eq_true, hvs, Option.getD_some]
          intro id' meta' hm'
          simp only [saveIdem_metadata, saveIdem_versions, appendAudit] at hm' ⊢
          by_cases hid : id' = req.id
          · subst hid
            rw [lookupA_setA_self] at hm'
            obtain rfl := Option.some.inj hm'
            refine ⟨_, lookupA_setA_self .., ?_, ?_⟩
            · cases hc : req.content_md with
              | none => simpa using hmap
              | some c =>
                simp only [hc, List.map_append, List.map_cons, List.map_nil, hmap]
                rw [List.range'_1_concat]
                simp [Nat.add_comm]
            · cases hc : req.content_md with
              | none => simpa using hL
              | some c => simp [hc]
          · rw [lookupA_setA_ne _ _ _ _ (fun hcc => hid hcc.symm)] at hm'
            obtain ⟨vs', hvs', hmap', hL'⟩ := hInv id' meta' hm'
            exact ⟨vs',
              by rw [lookupA_setA_ne _ _ _ _ (fun hcc => hid hcc.symm)]; exact hvs',
              hmap', hL'⟩

theorem versionInv_rollback (env : Env) (req : RollbackReq) (s : St)
    (hInv : VersionInv s) : VersionInv (rollbackDoc env req s).2 := by
  cases h : checkIdem s req.idemKey with
  | some stored =>
    have heq : (rollbackDoc env req s).2 = s := by
      unfold rollbackDoc; rw [h]
    rw [heq]; exact hInv
  | none =>
    by_cases htv : req.target_version = 0
    · have heq : (rollbackDoc env req s).2 = s := by
        unfold rollbackDoc; rw [h]; simp [htv]
      rw [heq]; exact hInv
    · cases hmeta : lookupA s.metadata req.id with
      | none =>
        have heq : (rollbackDoc env req s).2 = s := by
          unfold rollbackDoc; rw [h, hmeta]; simp [htv]
        rw [heq]; exact hInv
      | some meta =>
        by_cases hdel : meta.deleted_at.isSome
        · have heq : (rollbackDoc env req s).2 = s := by
            unfold rollbackDoc; rw [h, hmeta]; simp [htv, hdel]
          rw [heq]; exact hInv
        · obtain ⟨vs, hvs, hmap, hL⟩ := hInv req.id meta hmeta
          cases hfind : vs.find? (fun v => v.version_number = req.target_version) with
          | none =>
            have heq : (rollbackDoc env req s).2 = s := by
              unfold rollbackDoc; rw [h, hmeta]
              simp [htv, hdel, hvs, hfind]
            rw [heq]; exact hInv
          | some targetVer =>
            unfold rollbackDoc
            rw [h, hmeta]
            simp only [htv, hdel, Bool.false_eq_true, if_false, if_true,
              Bool.not_eq_true, hvs, Option.getD_some, hfind]
            intro id' meta' hm'
            simp only [saveIdem_metadata, saveIdem_versions, appendAudit] at hm' ⊢
            by_cases hid : id' = req.id
            · subst hid
              rw [lookupA_setA_self] at hm'
              obtain rfl := Option.some.inj hm'
              refine ⟨_, lookupA_setA_self .., ?_, ?_⟩
              · simp only [List.map_append, List.map_cons, List.map_nil, hmap]
                rw [List.range'_1_concat]
                simp [Nat.add_comm]
              · simp
            · rw [lookupA_setA_ne _ _ _ _ (fun hcc => hid hcc.symm)] at hm'
              obtain ⟨vs', hvs', hmap', hL'⟩ := hInv id' meta' hm'
              exact ⟨vs',
                by rw [lookupA_setA_ne _ _ _ _ (fun hcc => hid hcc.symm)]; exact hvs',
                hmap', hL'⟩

theorem versionInv_step (env : Env) {a b : St} (h : Step env a b)
    (hInv : VersionInv a) : VersionInv b := by
  cases h with
  | upload req => exact versionInv_upload env req a hInv
  | update req => exact versionInv_update env req a hInv
  | rollback req => exact versionInv_rollback env req a hInv

theorem reachable_versionInv (env : Env) (s : St) (hs : Reachable env s) :
    VersionInv s := by
  induction hs with
  | init => exact versionInv_empty
  | step _ hstep ih => exact versionInv_step env hstep ih

/-- **C1.** In every state reachable by the public operations (upload/create,
update, rollback) from the empty store, every document's `latest_version`
equals the maximum `version_number` of its version chain, and the chain's
version numbers are exactly `1, 2, ..., latest_version` in order — strictly
increasing, starting at 1, with no gaps. -/
theorem reachable_version_chain (env : Env) (s : St) (hs : Reachable env s)
    (id : String) (meta : DocMeta) (hm : lookupA s.metadata id = some meta) :
    ∃ vs, lookupA s.versions id = some vs ∧
      vs.map (·.version_number) = List.range' 1 meta.latest_version ∧
      meta.latest_version ∈ vs.map (·.version_number) ∧
      ∀ x ∈ vs.map (·.version_number), x ≤ meta.latest_version := by
  obtain ⟨vs, hvs, hmap, hL⟩ := reachable_versionInv env s hs id meta hm
  refine ⟨vs, hvs, hmap, ?_, ?_⟩
  · rw [hmap, List.mem_range']
    exact ⟨meta.latest_version - 1, by omega, by omega⟩
  · intro x hx
    rw [hmap, List.mem_range'] at hx
    obtain ⟨i, hi, rfl⟩ := hx
    omega

/-! Concrete instantiation data shared by the witnesses below. -/

/-- A concrete environment (any `Env` works in the theorems). -/
def envW : Env :=
  { hash := fun s => "sha:" ++ s,
    matterData := fun _ => ⟨none, none, none, none, []⟩,
    matterBody := id, render := id }

/-- A concrete upload request. -/
def uploadW : UploadReq :=
  { idemKey := none, filename := "intro_1.md", originalname := "intro.md",
    rawContent := "# Intro", tags := none, folder_id := none, description := none,
    category := none, project := none, visibility := none, actorId := "admin",
    now := "2024-01-01T00:00:00Z", versionUuid := "v-1", auditUuid := "a-1" }

/-- The state after uploading `intro.md` into the empty store. -/
def stW : St := (uploadDoc envW uploadW St.empty).2

/-- `stW` is reachable. -/
def stW_reachable : Reachable envW stW :=
  Reachable.step Reachable.init (Step.upload uploadW St.empty)

/-- The metadata row `stW` holds for document `intro_1`. -/
def metaW : DocMeta :=
  { title := "intro", slug := "intro", description := "",
    category := "uncategorized", tags := [], project := "", visibility := "team",
    folder_id := none, file_path := "intro_1.md", latest_version := 1,
    checksum := "sha:# Intro", token_count_estimate := 2, created_by := "admin",
    created_at := "2024-01-01T00:00:00Z", updated_at := "2024-01-01T00:00:00Z",
    deleted_at := none }

/-- Witness for C1: the invariant instantiated in the concrete reachable
state `stW` at document `intro_1`. -/
theorem reachable_version_chain_witness :
    lookupA stW.metadata "intro_1" = some metaW ∧
    ∃ vs, lookupA stW.versions "intro_1" = some vs ∧
      vs.map (·.version_number) = List.range' 1 metaW.latest_version ∧
      metaW.latest_version ∈ vs.map (·.version_number) ∧
      ∀ x ∈ vs.map (·.version_number), x ≤ metaW.latest_version :=
  ⟨by rfl,
    reachable_version_chain envW stW stW_reachable "intro_1" metaW (by rfl)⟩

/-- **C3.** For a live document with a well-formed chain: rolling back to a
version number that exists in the chain appends a brand-new version whose
content is exactly the target version's content, numbered
`latest_version + 1` (never a pointer change, never decreasing
`latest_version`), and the document's checksum becomes the hash of that
content; rolling back to a version number not in the chain fails with
`validation_error` and appends nothing (the state is unchanged). -/
theorem rollback_correct (env : Env) (req : RollbackReq) (s : St)
    (meta : DocMeta) (vs : List Version)
    (hkey : checkIdem s req.idemKey = none)
    (hmeta : lookupA s.metadata req.id = some meta)
    (hdel : meta.deleted_at = none)
    (hvs : lookupA s.versions req.id = some vs)
    (hwf : vs.map (·.version_number) = List.range' 1 meta.latest_version) :
    (req.target_version ∈ vs.map (·.version_number) →
      (rollbackDoc env req s).1.1 = 200 ∧
      ∃ v, v ∈ vs ∧ v.version_number = req.target_version ∧
        ∃ newv,
          lookupA (rollbackDoc env req s).2.versions req.id = some (vs ++ [newv]) ∧
          newv.content_md = v.content_md ∧
          newv.version_number = meta.latest_version + 1 ∧
          ∃ meta', lookupA (rollbackDoc env req s).2.metadata req.id = some meta' ∧
            meta'.latest_version = meta.latest_version + 1 ∧
            meta.latest_version < meta'.latest_version ∧
            meta'.checksum = env.hash v.content_md) ∧
    (req.target_version ∉ vs.map (·.version_number) →
      (rollbackDoc env req s).1.1 = 400 ∧
      (∃ msg, (rollbackDoc env req s).1.2 = .errBody "validation_error" msg) ∧
      (rollbackDoc env req s).2 = s) := by
  have hdel' : meta.deleted_at.isSome = false := by rw [hdel]; rfl
  constructor
  · intro hmem
    have htv : req.target_version ≠ 0 := by
      rw [hwf, List.mem_range'] at hmem
      omega
    obtain ⟨v, hv⟩ : ∃ v,
        vs.find? (fun v => v.version_number = req.target_version) = some v := by
      rw [← Option.isSome_iff_exists, List.find?_isSome]
      obtain ⟨x, hx, hxv⟩ := List.exists_of_mem_map hmem
      exact ⟨x, hx, by simpa using hxv⟩
    have hveq : v.version_number = req.target_version := by
      simpa using List.find?_some hv
    have hvmem : v ∈ vs := List.mem_of_find?_eq_some hv
    have hstate : (rollbackDoc env req s).1.1 = 200 ∧
        lookupA (rollbackDoc env req s).2.versions req.id = some (vs ++
          [{ id := req.versionUuid, document_id := req.id,
             version_number := meta.latest_version + 1,
             content_md := v.content_md,
             change_note := req.change_note.getD
               ("Rollback to version " ++ toString req.target_version),
             created_by := req.actorId, created_at := req.now,
             checksum := env.hash v.content_md }]) ∧
        lookupA (rollbackDoc env req s).2.metadata req.id = some
          { meta with latest_version := meta.latest_version + 1,
                      checksum := env.hash v.content_md,
                      updated_at := req.now } := by
      unfold rollbackDoc
      rw [hkey, hmeta]
      simp only [htv, hdel', Bool.false_eq_true, if_false, if_true, ite_false,
        Bool.not_eq_true, hvs, Option.getD_some, hv, saveIdem_metadata,
        saveIdem_versions, appendAudit]
      exact ⟨trivial, lookupA_setA_self .., lookupA_setA_self ..⟩
    obtain ⟨h200, hver, hmet⟩ := hstate
    exact ⟨h200, v, hvmem, hveq, _, hver, rfl, rfl, _, hmet, rfl, by simp, rfl⟩
  · intro hmem
    by_cases htv : req.target_version = 0
    · have heq : rollbackDoc env req s =
          ((400, .errBody "validation_error" "target_version is required"), s) := by
        unfold rollbackDoc
        rw [hkey]
        simp [htv]
      rw [heq]
      exact ⟨rfl, ⟨_, rfl⟩, rfl⟩
    · have hfind : vs.find? (fun v => v.version_number = req.target_version)
          = none := by
        rw [List.find?_eq_none]
        intro x hx hpx
        exact hmem (List.mem_map.mpr ⟨x, hx, by simpa using hpx⟩)
      have heq : rollbackDoc env req s =
          ((400, .errBody "validation_error"
            ("Version " ++ toString req.target_version ++ " not found")), s) := by
        unfold rollbackDoc
        rw [hkey, hmeta]
        simp [htv, hdel', hvs, hfind]
      rw [heq]
      exact ⟨rfl, ⟨_, rfl⟩, rfl⟩

/-- The initial version row `stW` holds for document `intro_1`. -/
def v1W : Version :=
  { id := "v-1", document_id := "intro_1", version_number := 1,
    content_md := "# Intro", change_note := "Initial upload",
    created_by := "admin", created_at := "2024-01-01T00:00:00Z",
    checksum := "sha:# Intro" }

/-- A concrete rollback request targeting version 1 of `intro_1`. -/
def rbW : RollbackReq :=
  { idemKey := none, id := "intro_1", target_version := 1, change_note := none,
    actorId := "admin", now := "2024-01-02T00:00:00Z", versionUuid := "v-2",
    auditUuid := "a-2" }

/-- Witness for C3: rolling `intro_1` back to its version 1 in `stW`
answers 200. -/
theorem rollback_correct_witness : (rollbackDoc envW rbW stW).1.1 = 200 :=
  ((rollback_correct envW rbW stW metaW [v1W] (by rfl) (by rfl) rfl (by rfl)
    (by rfl)).1 (by decide)).1

/-- An upload request naming a folder id that exists in no folder table. -/
def upFolderW : UploadReq :=
  { uploadW with folder_id := some "nope" }

/-- **C7 (counterexample).** Uploading with `folder_id = "nope"` into the
empty store — where no folder exists — does *not* fail with
`validation_error`: the handler answers 201 and creates the document, with
its `folder_id` silently nulled. -/
theorem upload_unknown_folder_cex :
    lookupA St.empty.folders "nope" = none ∧
    (uploadDoc envW upFolderW St.empty).1.1 = 201 ∧
    ∃ m, lookupA (uploadDoc envW upFolderW St.empty).2.metadata "intro_1" =
      some m ∧ m.folder_id = none :=
  ⟨rfl, rfl, _, by rfl, rfl⟩

/-- **C7 (amended).** An upload whose `folder_id` names no existing folder
succeeds anyway: the handler coerces the unknown `folder_id` to `null` and
creates the document at the root (status 201); no `validation_error` is
raised.  (Only `PUT /documents/:id` and the batch move reject an unknown
`folder_id`.) -/
theorem upload_unknown_folder_ignored (env : Env) (req : UploadReq) (s : St)
    (fid : String)
    (hkey : checkIdem s req.idemKey = none)
    (hf : req.folder_id = some fid) (hne : fid ≠ "")
    (hlook : lookupA s.folders fid = none) :
    (uploadDoc env req s).1.1 = 201 ∧
    ∃ m, lookupA (uploadDoc env req s).2.metadata (stripMd req.filename) =
      some m ∧ m.folder_id = none := by
  have hsome : (lookupA s.folders fid).isSome = false := by rw [hlook]; rfl
  unfold uploadDoc
  rw [hkey]
  simp only [hf, hne, Bool.false_eq_true, if_false, ite_false, hlook, hsome,
    saveIdem_metadata, appendAudit]
  exact ⟨trivial, _, lookupA_setA_self .., rfl⟩

/-- Witness for the amended C7, at the concrete upload `upFolderW`. -/
theorem upload_unknown_folder_ignored_witness :
    (uploadDoc envW upFolderW St.empty).1.1 = 201 ∧
    ∃ m, lookupA (uploadDoc envW upFolderW St.empty).2.metadata
      (stripMd upFolderW.filename) = some m ∧ m.folder_id = none :=
  upload_unknown_folder_ignored envW upFolderW St.empty "nope"
    (by rfl) (by rfl) (by decide) (by rfl)

theorem lookupA_map {α : Type} (g : String × α → α) (m : List (String × α))
    (k : String) :
    lookupA (m.map fun p => (p.1, g p)) k =
      (lookupA m k).map fun v => g (k, v) := by
  induction m with
  | nil => rfl
  | cons p rest ih =>
    by_cases h : p.1 = k
    · subst h
      simp [lookupA]
    · simp [lookupA, h, ih]

/-- The claim's notion of "descendant folder of F": walking the folder's
`parent_id` chain reaches F.  (Spec-side definition, for comparison with the
code's path-prefix cascade.) -/
def treeDescendant (folders : List (String × Folder)) (child anc : String) :
    Bool :=
  reachesId folders anc (folders.length + 1)
    ((lookupA folders child).bind (·.parent_id))

/-- A root folder `A` with directory `A`. -/
def folderAW : Folder :=
  { id := "A", name := "A", dir_name := "A", parent_id := none,
    created_by := "admin", created_at := "t0", updated_at := "t0" }

/-- A folder `C` that was created inside `A` (directory `A/C`) and has since
been reparented to the root (`parent_id = null`): reparenting does not
recompute `dir_name`, so its path still sits under `A`. -/
def folderCW : Folder :=
  { id := "C", name := "C", dir_name := "A/C", parent_id := none,
    created_by := "admin", created_at := "t0", updated_at := "t0" }

/-- A folder table holding `A` and the reparented `C`. -/
def stFW : St :=
  { St.empty with folders := [("A", folderAW), ("C", folderCW)],
                  dirs := ["A", "A/C"] }

/-- The rename request `A -> A2`. -/
def renAW : FolderUpdateReq :=
  { id := "A", name := some "A2", parent_id := none, actorId := "admin",
    now := "t1", auditUuid := "a-3" }

/-- **C6 (counterexample).** Renaming `A` to `A2` rewrites the directory
path of folder `C` even though `C` is *not* a descendant of `A` (its parent
chain is empty — it had been reparented to the root without a rename), so a
folder outside `A`'s subtree does not stay unchanged. -/
theorem rename_outside_subtree_cex :
    treeDescendant stFW.folders "C" "A" = false ∧
    (lookupA stFW.folders "C").map (·.dir_name) = some "A/C" ∧
    (lookupA (renameFolder renAW stFW).2.folders "C").map (·.dir_name) =
      some "A2/C" :=
  ⟨rfl, rfl, by rfl⟩

/-- **C6 (amended).** A folder rename that changes the directory name
cascades by *path prefix*: every other folder whose `dir_name` lies under
the old path, and every live (non-soft-deleted) document whose `file_path`
lies under the old path, gets the prefix rewritten to the new directory
name; every folder and document whose path is not under the old path keeps
its record unchanged.  (Path-descendants, not parent-chain descendants:
folders reparented without a rename keep their old paths and are treated by
path.) -/
theorem renameFolder_cascade (req : FolderUpdateReq) (s : St) (f0 : Folder)
    (n : String)
    (hf : lookupA s.folders req.id = some f0)
    (hpar : req.parent_id = none)
    (hn : req.name = some n)
    (hchanged : renameNewDir s req f0 ≠ f0.dir_name) :
    (renameFolder req s).1.1 = 200 ∧
    (∀ fid f, fid ≠ req.id → lookupA s.folders fid = some f →
      lookupA (renameFolder req s).2.folders fid = some (
        if f.dir_name ≠ "" ∧ startsWithS f.dir_name (f0.dir_name ++ "/") then
          { f with dir_name :=
              renameNewDir s req f0 ++ dropS f.dir_name f0.dir_name.length }
        else f)) ∧
    (∀ did m, lookupA s.metadata did = some m →
      lookupA (renameFolder req s).2.metadata did = some (
        if m.deleted_at = none ∧ m.file_path ≠ "" ∧
            startsWithS m.file_path (f0.dir_name ++ "/") then
          { m with file_path :=
              renameNewDir s req f0 ++ dropS m.file_path f0.dir_name.length }
        else m)) := by
  unfold renameFolder
  simp only [hf, hpar, hn, Option.isSome_some, ne_eq, hchanged, not_false_iff,
    true_and, if_true, Bool.false_eq_true, if_false, appendAudit]
  refine ⟨?_, ?_⟩
  · intro fid f hfid hl
    rw [lookupA_map]
    rw [lookupA_setA_ne _ _ _ _ (fun hc => hfid hc.symm), hl]
    simp [hfid]
  · intro did m hl
    rw [lookupA_map, hl]
    simp

/-- Witness for the amended C6: in the concrete table, the rename answers
200 and rewrites `C`'s directory path from `A/C` to `A2/C`. -/
theorem renameFolder_cascade_witness :
    (renameFolder renAW stFW).1.1 = 200 ∧
    lookupA (renameFolder renAW stFW).2.folders "C" =
      some { folderCW with dir_name := "A2/C" } := by
  have h := renameFolder_cascade renAW stFW folderAW "A2"
    (by rfl) rfl rfl (by decide)
  refine ⟨h.1, ?_⟩
  have h2 := h.2.1 "C" folderCW (by decide) (by rfl)
  rw [h2]
  rfl

/-- **C10 (counterexample).** Soft-deleting `intro_1` while the audit-log
write fails: the soft delete is persisted, yet the handler answers 500
`internal_error` instead of the success 204 — the audit failure *does* fail
the business operation's response. -/
theorem delete_audit_failure_cex :
    (deleteDoc false "intro_1" "admin" "t9" "a-9" stW).1.1 = 500 ∧
    ∃ m, lookupA (deleteDoc false "intro_1" "admin" "t9" "a-9" stW).2.metadata
      "intro_1" = some m ∧ m.deleted_at = some "t9" :=
  ⟨rfl, _, by rfl, rfl⟩

/-- **C10 (amended).** A failed audit-log write after a soft delete leaves
the state change persisted (the document is marked deleted and the audit log
untouched) but makes the endpoint answer 500 `internal_error` instead of
204: the business mutation survives, the success response does not.  When
the audit write succeeds the handler answers 204 and appends exactly one
audit entry. -/
theorem deleteDoc_audit_failure (s : St) (id actor now uuid : String)
    (meta : DocMeta)
    (hm : lookupA s.metadata id = some meta) (hdel : meta.deleted_at = none) :
    (deleteDoc false id actor now uuid s).1.1 = 500 ∧
    (∃ msg, (deleteDoc false id actor now uuid s).1.2 =
      .errBody "internal_error" msg) ∧
    lookupA (deleteDoc false id actor now uuid s).2.metadata id =
      some { meta with deleted_at := some now } ∧
    (deleteDoc false id actor now uuid s).2.auditLogs = s.auditLogs ∧
    (deleteDoc true id actor now uuid s).1.1 = 204 ∧
    lookupA (deleteDoc true id actor now uuid s).2.metadata id =
      some { meta with deleted_at := some now } ∧
    (deleteDoc true id actor now uuid s).2.auditLogs.length =
      s.auditLogs.length + 1 := by
  have hdel' : meta.deleted_at.isSome = false := by rw [hdel]; rfl
  have hfalse : deleteDoc false id actor now uuid s =
      ((500, .errBody "internal_error" "audit log write failed"),
        { s with metadata := setA s.metadata id { meta with deleted_at := some now } }) := by
    unfold deleteDoc
    rw [hm]
    simp [hdel']
  have htrue : deleteDoc true id actor now uuid s =
      ((204, .noContent),
        { s with
          metadata := setA s.metadata id { meta with deleted_at := some now },
          auditLogs := s.auditLogs ++
            [{ id := uuid, actor_type := "user", actor_id := actor,
               action := "document.delete", resource_type := "document",
               resource_id := id, meta := [], created_at := now }] }) := by
    unfold deleteDoc
    rw [hm]
    simp [hdel', appendAudit]
  rw [hfalse, htrue]
  exact ⟨rfl, ⟨_, rfl⟩, lookupA_setA_self .., rfl, rfl,
    lookupA_setA_self .., by simp⟩

/-- Witness for the amended C10 at the concrete state `stW`. -/
theorem deleteDoc_audit_failure_witness :
    (deleteDoc false "intro_1" "admin" "t9" "a-9" stW).1.1 = 500 ∧
    (deleteDoc true "intro_1" "admin" "t9" "a-9" stW).1.1 = 204 :=
  let h := deleteDoc_audit_failure stW "intro_1" "admin" "t9" "a-9" metaW
    (by rfl) rfl
  ⟨h.1, h.2.2.2.2.1⟩

/-- The upload request `uploadW` carrying the idempotency key `k1`. -/
def upKW : UploadReq := { uploadW with idemKey := some "k1" }

/-- **C2 (counterexample).** Replaying the same upload with the same
idempotency key returns the stored body byte-identically, but the HTTP
status differs: 201 on the first request, 200 on the replay — so the two
responses are not byte-identical. -/
theorem idem_replay_status_cex :
    (uploadDoc envW upKW St.empty).1.1 = 201 ∧
    (uploadDoc envW upKW (uploadDoc envW upKW St.empty).2).1.1 = 200 ∧
    (uploadDoc envW upKW (uploadDoc envW upKW St.empty).2).1.2 =
      (uploadDoc envW upKW St.empty).1.2 ∧
    (uploadDoc envW upKW (uploadDoc envW upKW St.empty).2).2 =
      (uploadDoc envW upKW St.empty).2 :=
  ⟨rfl, by rfl, by rfl, by rfl⟩

/-- A replayed request (any request carrying a key whose response is stored)
is answered with status 200, the stored body, and no state change at all:
no version is appended, no audit entry is written, multer does not even
store a file. -/
theorem uploadDoc_replay (env : Env) (req : UploadReq) (s : St) (k : String)
    (r : IdemRec) (hk : req.idemKey = some k) (hst : lookupA s.idem k = some r) :
    uploadDoc env req s = ((200, r.response), s) := by
  unfold uploadDoc
  rw [hk]
  simp [checkIdem, hst]

/-- **C2 (amended).** For a fresh idempotency key, the upload executes once
(status 201, exactly one new audit entry, a single-version chain for the new
document) and stores its response body under the key; any second request
with the same key is answered from the store with the identical body and no
further state change — but with status 200, which on upload differs from
the original 201. -/
theorem idem_guard_upload (env : Env) (req req' : UploadReq) (s : St)
    (k : String) (hk : req.idemKey = some k) (hk' : req'.idemKey = some k)
    (hfresh : lookupA s.idem k = none) :
    (uploadDoc env req s).1.1 = 201 ∧
    (uploadDoc env req s).2.auditLogs.length = s.auditLogs.length + 1 ∧
    (∃ v, lookupA (uploadDoc env req s).2.versions (stripMd req.filename) =
      some [v]) ∧
    uploadDoc env req' (uploadDoc env req s).2 =
      ((200, (uploadDoc env req s).1.2), (uploadDoc env req s).2) := by
  have hck : checkIdem s req.idemKey = none := by
    rw [hk]
    simp [checkIdem, hfresh]
  have hstored : lookupA (uploadDoc env req s).2.idem k =
      some ⟨(uploadDoc env req s).1.2, req.now⟩ := by
    unfold uploadDoc
    rw [hck]
    simp only [saveIdem, hk]
    exact lookupA_setA_self ..
  refine ⟨?_, ?_, ?_, ?_⟩
  · unfold uploadDoc
    rw [hck]
  · unfold uploadDoc
    rw [hck]
    simp [saveIdem_auditLogs, appendAudit]
  · have hv : lookupA (uploadDoc env req s).2.versions (stripMd req.filename) =
        some [{ id := req.versionUuid, document_id := stripMd req.filename,
                version_number := 1, content_md := req.rawContent,
                change_note := "Initial upload", created_by := req.actorId,
                created_at := req.now,
                checksum := env.hash req.rawContent }] := by
      unfold uploadDoc
      rw [hck]
      simp only [saveIdem_versions, appendAudit]
      exact lookupA_setA_self ..
    exact ⟨_, hv⟩
  · exact uploadDoc_replay env req' _ k _ hk' hstored

/-- Witness for the amended C2 at the concrete double upload. -/
theorem idem_guard_upload_witness :
    (uploadDoc envW upKW St.empty).1.1 = 201 ∧
    (uploadDoc envW upKW St.empty).2.auditLogs.length =
      St.empty.auditLogs.length + 1 ∧
    (∃ v, lookupA (uploadDoc envW upKW St.empty).2.versions
      (stripMd upKW.filename) = some [v]) ∧
    uploadDoc envW upKW (uploadDoc envW upKW St.empty).2 =
      ((200, (uploadDoc envW upKW St.empty).1.2),
        (uploadDoc envW upKW St.empty).2) :=
  idem_guard_upload envW upKW upKW St.empty "k1" rfl rfl (by rfl)

theorem mem_filterStage {p : Option (DocOut → Bool)} {docs : List DocOut}
    {x : DocOut} (h : x ∈ filterStage p docs) : x ∈ docs := by
  unfold filterStage at h
  split at h
  · exact (List.mem_filter.mp h).1
  · exact h

theorem lookupA_eq_of_mem {α : Type} {m : List (String × α)} {k : String}
    {v : α} (hnodup : (m.map Prod.fst).Nodup) (h : (k, v) ∈ m) :
    lookupA m k = some v := by
  induction m with
  | nil => cases h
  | cons p rest ih =>
    rcases List.mem_cons.mp h with h | h
    · subst h
      simp [lookupA]
    · have hk : p.1 ≠ k := by
        intro hpk
        have : k ∈ rest.map Prod.fst :=
          List.mem_map.mpr ⟨(k, v), h, rfl⟩
        rw [List.map_cons, List.nodup_cons] at hnodup
        exact hnodup.1 (hpk ▸ this)
      simp only [lookupA, hk, if_false]
      exact ih (List.nodup_cons.mp (by simpa using hnodup)).2 h

theorem searchEntry_some {s : St} {q lower id : String} {m : DocMeta}
    {h : SearchHit} (he : searchEntry s q lower id m = some h) :
    h.doc.id = id ∧ m.deleted_at = none := by
  unfold searchEntry at he
  split at he
  · cases he
  · rename_i hdel
    constructor
    · split at he
      · obtain rfl := Option.some.inj he
        rfl
      · split at he
        · obtain rfl := Option.some.inj he
          rfl
        · split at he
          · split at he
            · obtain rfl := Option.some.inj he
              rfl
            · cases he
          · cases he
    · cases hd : m.deleted_at with
      | none => rfl
      | some t => rw [hd] at hdel; exact absurd rfl hdel

/-- **C9.** A soft-deleted document (`deleted_at` set) never appears in the
data of a `List` call nor in the data of a `Search` call, for any filters
and pagination; yet its full version chain is still served by the
version-history endpoint (which only 404s when the metadata row is missing
entirely). -/
theorem soft_deleted_hidden (req : ListReq) (q : Option String)
    (pg ps : Option Int) (s : St) (id : String) (meta : DocMeta) (t : String)
    (hnodup : (s.metadata.map Prod.fst).Nodup)
    (hm : lookupA s.metadata id = some meta)
    (hdel : meta.deleted_at = some t) :
    (∀ d ∈ (listDocs req s).data, d.id ≠ id) ∧
    (∀ r, (searchDocs q pg ps s).2 = some r → ∀ h ∈ r.data, h.doc.id ≠ id) ∧
    listVersions id s =
      (200, some (id, ((lookupA s.versions id).getD []).map toVersionOut)) := by
  refine ⟨?_, ?_, ?_⟩
  · intro d hd hid
    subst hid
    have hd1 : d ∈ (listFiltered req s).insertionSort
        (fun a b => sortLe (req.sort_by.getD "updated_at")
          (decide (req.sort_order = some "asc")) a b = true) := by
      simp only [listDocs] at hd
      exact List.mem_of_mem_drop (List.mem_of_mem_take hd)
    rw [List.mem_insertionSort] at hd1
    have hd2 := mem_filterStage (mem_filterStage (mem_filterStage
      (mem_filterStage hd1)))
    obtain ⟨p, hp, hpd⟩ := List.mem_map.mp hd2
    have hplive := (List.mem_filter.mp hp).2
    have hpmem := (List.mem_filter.mp hp).1
    have hpid : p.1 = d.id := by rw [← hpd]; rfl
    have : lookupA s.metadata d.id = some p.2 :=
      lookupA_eq_of_mem hnodup (by rw [← hpid]; exact hpmem)
    rw [hm] at this
    obtain rfl := Option.some.inj this
    rw [hdel] at hplive
    exact absurd hplive (by simp)
  · intro r hr h hh hid
    cases hq : q with
    | none =>
      simp only [searchDocs, hq] at hr
      cases hr
    | some qq =>
      by_cases hqq : qq = ""
      · simp only [searchDocs, hq, hqq, if_true, if_pos] at hr
        cases hr
      · simp only [searchDocs, hq, hqq, if_false, if_neg, not_false_iff] at hr
        obtain rfl := Option.some.inj hr
        have hh1 : h ∈ s.metadata.filterMap fun p =>
            searchEntry s qq (lowerStr qq) p.1 p.2 :=
          List.mem_of_mem_drop (List.mem_of_mem_take hh)
        obtain ⟨p, hp, hpe⟩ := List.mem_filterMap.mp hh1
        obtain ⟨hpid, hpdel⟩ := searchEntry_some hpe
        rw [hid] at hpid
        have : lookupA s.metadata id = some p.2 :=
          lookupA_eq_of_mem hnodup (by rw [hpid]; exact hp)
      
        rw [hm] at this
        obtain rfl := Option.some.inj this
        rw [hdel] at hpdel
        cases hpdel
  · unfold listVersions
    rw [hm]

/-- `stW` after soft-deleting `intro_1`. -/
def stDelW : St := (deleteDoc true "intro_1" "admin" "t9" "a-9" stW).2

/-- `intro_1`'s metadata row after the soft delete. -/
def metaDelW : DocMeta := { metaW with deleted_at := some "t9" }

/-- A `List` request with no filters and default sorting/pagination. -/
def listReqW : ListReq :=
  { tag := none, project := none, q := none, folder_id := none,
    sort_by := none, sort_order := none, page := none, page_size := none }

/-- Witness for C9 in the concrete soft-deleted state. -/
theorem soft_deleted_hidden_witness :
    (∀ d ∈ (listDocs listReqW stDelW).data, d.id ≠ "intro_1") ∧
    (∀ r, (searchDocs (some "intro") none none stDelW).2 = some r →
      ∀ h ∈ r.data, h.doc.id ≠ "intro_1") ∧
    listVersions "intro_1" stDelW = (200, some ("intro_1",
      ((lookupA stDelW.versions "intro_1").getD []).map toVersionOut)) :=
  soft_deleted_hidden listReqW (some "intro") none none stDelW "intro_1"
    metaDelW "t9" (by decide) (by rfl) rfl

/-- Metadata of a document `b`, updated at the same instant as `a`. -/
def metaBW : DocMeta :=
  { title := "B", slug := "b", description := "", category := "docs",
    tags := [], project := "", visibility := "team", folder_id := none,
    file_path := "b.md", latest_version := 1, checksum := "cb",
    token_count_estimate := 1, created_by := "u",
    created_at := "2024-01-01T00:00:00Z",
    updated_at := "2024-01-05T00:00:00Z", deleted_at := none }

/-- Metadata of a document `a` with the same `updated_at` as `b`. -/
def metaAW : DocMeta :=
  { metaBW with title := "A", slug := "a", file_path := "a.md",
                checksum := "ca" }

/-- A store whose metadata table was populated `b` first, then `a`. -/
def stC8 : St := { St.empty with metadata := [("b", metaBW), ("a", metaAW)] }

/-- **C8 (counterexample).** Listing `stC8` with the default sort
(`updated_at`, descending): the two documents' sort-field values tie, and
the result keeps the metadata table's insertion order `b, a` — not the id
order `a, b` the claimed id-tiebreak would give (`"a" < "b"`). -/
theorem list_sort_no_id_tiebreak_cex :
    ((listDocs listReqW stC8).data.map (·.id)) = ["b", "a"] ∧
    ((listDocs listReqW stC8).data.map (·.updated_at)) =
      ["2024-01-05T00:00:00Z", "2024-01-05T00:00:00Z"] ∧
    (strLe "a" "b" = true ∧ ("a" : String) ≠ "b") :=
  ⟨by rfl, by rfl, by decide⟩

/-- **C8 (amended).** The listing's order is deterministic but ties on the
sort field keep the metadata table's enumeration (insertion) order, with no
id tiebreak: whenever `a` appears before `b` among the filtered documents
and their sort-field values are equal, `a` still appears before `b` in the
sorted sequence the page is cut from. -/
theorem list_sort_stable (req : ListReq) (s : St) (a b : DocOut)
    (hab : [a, b].Sublist (listFiltered req s))
    (heq : sortFieldVal (req.sort_by.getD "updated_at") a =
           sortFieldVal (req.sort_by.getD "updated_at") b) :
    [a, b].Sublist ((listFiltered req s).insertionSort
      (fun x y => sortLe (req.sort_by.getD "updated_at")
        (decide (req.sort_order = some "asc")) x y = true)) := by
  apply List.pair_sublist_insertionSort _ hab
  unfold sortLe
  cases hasc : decide (req.sort_order = some "asc") <;>
    simp [heq, strLe_refl]

/-- Witness for the amended C8: in `stC8`, `b` (inserted first) stays ahead
of the tying `a` in the sorted sequence. -/
theorem list_sort_stable_witness :
    [buildDocSummary "b" metaBW, buildDocSummary "a" metaAW].Sublist
      ((listFiltered listReqW stC8).insertionSort
        (fun x y => sortLe (listReqW.sort_by.getD "updated_at")
          (decide (listReqW.sort_order = some "asc")) x y = true)) :=
  list_sort_stable listReqW stC8 (buildDocSummary "b" metaBW)
    (buildDocSummary "a" metaAW) (by decide) (by decide)

/-! ## Chunking engine: invariants and specification (C4, C5) -/

/-- Sum of the per-line token estimates of a group of lines. -/
def sumTok (ls : List String) : Nat := (ls.map tokenEstimate).sum

/-- `spans cs a b`: the chunks `cs` cover exactly the 1-based line numbers
`a..b`, consecutively and without overlap. -/
def spans : List Chunk → Nat → Nat → Prop
  | [], a, b => b + 1 = a
  | c :: cs, a, b => c.start_line = a ∧ a ≤ c.end_line ∧ spans cs (c.end_line + 1) b

/-- What is true of every emitted chunk, relative to the document's line
list: its text is the newline-join of its line slice, its token estimate is
computed on that join, a multi-line chunk's lines respect the budget by
their summed estimates, and an over-budget line always sits alone. -/
def ChunkGood (lines : List String) (maxTok : Nat) (c : Chunk) : Prop :=
  let g := (lines.take c.end_line).drop (c.start_line - 1)
  g ≠ [] ∧
  c.text = joinNl g ∧
  c.token_count_estimate = tokenEstimate (joinNl g) ∧
  g.length = c.end_line + 1 - c.start_line ∧
  (2 ≤ g.length → sumTok g ≤ maxTok) ∧
  (∀ l ∈ g, maxTok < tokenEstimate l → g.length = 1)

/-- The loop invariant of the chunk accumulation loop after `i` lines. -/
structure ChunkInv (maxTok : Nat) (lines : List String) (i : Nat)
    (st : ChunkSt) : Prop where
  start_eq : st.startLine = i + 1 - st.currentChunk.length
  len_le : st.currentChunk.length ≤ i
  curr_eq : st.currentChunk = (lines.take i).drop (i - st.currentChunk.length)
  tok_eq : st.currentTokens = sumTok st.currentChunk
  budget : 2 ≤ st.currentChunk.length → sumTok st.currentChunk ≤ maxTok
  oversize : ∀ l ∈ st.currentChunk,
    maxTok < tokenEstimate l → st.currentChunk.length = 1
  good : ∀ c ∈ st.chunks, ChunkGood lines maxTok c
  cover : spans st.chunks 1 (st.startLine - 1)
  empty_init : st.currentChunk = [] → st.chunks = [] ∧ st.startLine = 1

theorem chunkInv_init (maxTok : Nat) (lines : List String) :
    ChunkInv maxTok lines 0
      { chunks := [], currentChunk := [], currentTokens := 0,
        chunkIndex := 0, startLine := 1, headingPath := [] } := by
  constructor <;> simp [sumTok, spans]

theorem spans_snoc {cs : List Chunk} {a b : Nat} (c : Chunk)
    (h : spans cs a b) (hs : c.start_line = b + 1) (hle : c.start_line ≤ c.end_line) :
    spans (cs ++ [c]) a c.end_line := by
  induction cs generalizing a with
  | nil =>
    simp only [spans] at h
    exact ⟨by omega, by omega, rfl⟩
  | cons d ds ih =>
    obtain ⟨hd1, hd2, hd3⟩ := h
    exact ⟨hd1, hd2, ih hd3⟩

theorem take_succ_of_drop {α : Type} {l : List α} {i : Nat} {x : α}
    {rest : List α} (h : l.drop i = x :: rest) :
    l.take (i + 1) = l.take i ++ [x] := by
  have h1 : i < l.length := by
    by_contra hle
    push_neg at hle
    rw [List.drop_eq_nil_of_le hle] at h
    cases h
  have h2 : (l.take i).length = i := by
    rw [List.length_take]
    omega
  calc l.take (i + 1)
      = (l.take i ++ l.drop i).take (i + 1) := by rw [List.take_append_drop]
    _ = (l.take i).take (i + 1) ++ (l.drop i).take (i + 1 - (l.take i).length) :=
        List.take_append_eq_append_take
    _ = l.take i ++ [x] := by
        rw [List.take_of_length_le (by omega), h2, h]
        simp

theorem drop_of_append_single {α : Type} {l : List α} {i k : Nat} {x : α}
    (hk : k ≤ i) (hlen : (l.take i).length = i) :
    (l.take i ++ [x]).drop k = (l.take i).drop k ++ [x] := by
  rw [List.drop_append_eq_append_drop, hlen]
  have : k - i = 0 := by omega
  rw [this]
  rfl

theorem estimate_le_sumTok {l : String} {ls : List String} (h : l ∈ ls) :
    tokenEstimate l ≤ sumTok ls :=
  List.single_le_sum (fun x _ => Nat.zero_le x) _
    (List.mem_map_of_mem tokenEstimate h)

theorem chunkInv_step (maxTok : Nat) (lines : List String) (i : Nat)
    (st : ChunkSt) (line : String) (rest : List String)
    (hdrop : lines.drop i = line :: rest)
    (inv : ChunkInv maxTok lines i st) :
    ChunkInv maxTok lines (i + 1) (chunkStep maxTok i line st) := by
  have hilen : i < lines.length := by
    by_contra hle
    push_neg at hle
    rw [List.drop_eq_nil_of_le hle] at hdrop
    cases hdrop
  have htake : lines.take (i + 1) = lines.take i ++ [line] :=
    take_succ_of_drop hdrop
  have htklen : (lines.take i).length = i := by
    rw [List.length_take]
    omega
  unfold chunkStep
  by_cases hc : (st.currentTokens + tokenEstimate line > maxTok ∧
      st.currentChunk ≠ [])
  · rw [if_pos hc]
    have hlen1 : 1 ≤ st.currentChunk.length := List.length_pos.mpr hc.2
    have hstart1 : st.startLine = i + 1 - st.currentChunk.length := inv.start_eq
    have hlenle : st.currentChunk.length ≤ i := inv.len_le
    constructor
    · simp
    · simp
    · simp only [List.length_cons, List.length_nil]
      rw [show i + 1 - 1 = i from rfl, htake]
      rw [drop_of_append_single (Nat.le_refl i) htklen]
      rw [show List.drop i (List.take i lines) = ([] : List String) from
        List.drop_eq_nil_of_le (le_of_eq htklen)]
      rfl
    · simp [sumTok]
    · intro h2
      simp at h2
    · intro l hl hover
      rfl
    · intro c' hc'
      rcases List.mem_append.mp hc' with hold | hnew
      · exact inv.good c' hold
      · rw [List.mem_singleton] at hnew
        subst hnew
        have hg : (lines.take i).drop (st.startLine - 1) = st.currentChunk := by
          rw [show st.startLine - 1 = i - st.currentChunk.length by omega]
          exact inv.curr_eq.symm
        refine ⟨?_, ?_, ?_, ?_, ?_, ?_⟩
        · simp only [hg]
          exact hc.2
        · simp only [hg]
        · simp only [hg]
        · simp only [hg]
          omega
        · simp only [hg]
          exact inv.budget
        · simp only [hg]
          exact inv.oversize
    · have hcov := inv.cover
      have hsnoc := spans_snoc
        (⟨st.chunkIndex,
          (match headingMatch line with
            | some (level, heading) => setHeading st.headingPath level heading
            | none => st.headingPath),
          joinNl st.currentChunk,
          tokenEstimate (joinNl st.currentChunk), st.startLine, i⟩ : Chunk)
        hcov (by simp; omega) (by simp; omega)
      simpa using hsnoc
    · intro h
      cases h
  · rw [if_neg hc]
    have hcase : st.currentTokens + tokenEstimate line ≤ maxTok ∨
        st.currentChunk = [] := by
      by_cases h1 : st.currentChunk = []
      · exact Or.inr h1
      · left
        by_contra h2
        push_neg at h2
        exact hc ⟨h2, h1⟩
    constructor
    · simp only [List.length_append, List.length_cons, List.length_nil]
      have := inv.start_eq
      have := inv.len_le
      omega
    · simp only [List.length_append, List.length_cons, List.length_nil]
      have := inv.len_le
      omega
    · simp only [List.length_append, List.length_cons, List.length_nil]
      rw [show i + 1 - (st.currentChunk.length + 1) = i - st.currentChunk.length
        by have := inv.len_le; omega]
      rw [htake, drop_of_append_single (by omega) htklen, ← inv.curr_eq]
    · simp [sumTok, inv.tok_eq]
    · intro h2
      simp only [List.length_append, List.length_cons, List.length_nil] at h2
      have hne : st.currentChunk ≠ [] := by
        intro hnil
        rw [hnil] at h2
        simp at h2
      rcases hcase with hle | hnil
      · rw [show sumTok (st.currentChunk ++ [line]) =
          sumTok st.currentChunk + tokenEstimate line by simp [sumTok]]
        rw [← inv.tok_eq]
        exact hle
      · exact absurd hnil hne
    · intro l hl hover
      rcases List.mem_append.mp hl with hmem | hline
      · rcases hcase with hle | hnil
        · exfalso
          have h1 : tokenEstimate l ≤ sumTok st.currentChunk :=
            estimate_le_sumTok hmem
          rw [← inv.tok_eq] at h1
          omega
        · rw [hnil] at hmem
          cases hmem
      · rw [List.mem_singleton] at hline
        subst hline
        rcases hcase with hle | hnil
        · omega
        · rw [hnil]
          rfl
    · exact inv.good
    · exact inv.cover
    · intro h
      exact absurd h (by simp)

theorem chunkLoop_inv (maxTok : Nat) (lines : List String) :
    ∀ (rest : List String) (i : Nat) (st : ChunkSt),
      rest = lines.drop i → i ≤ lines.length → ChunkInv maxTok lines i st →
      ChunkInv maxTok lines lines.length (chunkLoop maxTok rest i st) := by
  intro rest
  induction rest with
  | nil =>
    intro i st hrest hile hinv
    have hlen : lines.length ≤ i := by
      by_contra hlt
      push_neg at hlt
      have : lines.drop i ≠ [] := by
        intro hnil
        rw [List.drop_eq_nil_iff] at hnil
        omega
      exact this hrest.symm
    have : i = lines.length := by omega
    subst this
    exact hinv
  | cons line rest' ih =>
    intro i st hrest hile hinv
    have hdrop : lines.drop i = line :: rest' := hrest.symm
    have hilen : i < lines.length := by
      by_contra hle
      push_neg at hle
      rw [List.drop_eq_nil_of_le hle] at hdrop
      cases hdrop
    have hrest' : rest' = lines.drop (i + 1) := by
      have h1 : lines.drop (i + 1) = (lines.drop i).drop 1 := by
        rw [List.drop_drop]
      rw [h1, hdrop]
      rfl
    exact ih (i + 1) (chunkStep maxTok i line st) hrest' (by omega)
      (chunkInv_step maxTok lines i st line rest' hdrop hinv)

theorem splitLines_ne_nil (body : String) : splitLines body ≠ [] := by
  unfold splitLines
  intro h
  rw [List.map_eq_nil_iff] at h
  exact List.splitOnP_ne_nil _ _ h

/-- The chunking loop's guarantees, relative to the document's line list:
every chunk is `ChunkGood` (its text is the join of its line slice, the
budget holds for multi-line chunks, oversized lines sit alone), the chunks
cover the line numbers `1..n` contiguously without overlap, and there is
always at least one chunk. -/
theorem chunkBody_spec (body : String) (maxTok : Nat) :
    (∀ c ∈ chunkBody body maxTok, ChunkGood (splitLines body) maxTok c) ∧
    spans (chunkBody body maxTok) 1 (splitLines body).length ∧
    chunkBody body maxTok ≠ [] := by
  have hinv : ChunkInv maxTok (splitLines body) (splitLines body).length
      (chunkLoop maxTok (splitLines body) 0
        { chunks := [], currentChunk := [], currentTokens := 0,
          chunkIndex := 0, startLine := 1, headingPath := [] }) :=
    chunkLoop_inv maxTok (splitLines body) (splitLines body) 0 _ rfl
      (Nat.zero_le _) (chunkInv_init maxTok (splitLines body))
  have hlinesne : splitLines body ≠ [] := splitLines_ne_nil body
  have hlen1 : 1 ≤ (splitLines body).length := by
    cases h : splitLines body with
    | nil => exact absurd h hlinesne
    | cons a l => simp
  have hne : (chunkLoop maxTok (splitLines body) 0
      { chunks := [], currentChunk := [], currentTokens := 0,
        chunkIndex := 0, startLine := 1, headingPath := [] }).currentChunk ≠ [] := by
    intro hnil
    obtain ⟨hch, hsl⟩ := hinv.empty_init hnil
    have hse := hinv.start_eq
    rw [hnil, hsl] at hse
    simp only [List.length_nil, Nat.sub_zero] at hse
    omega
  have hclen : 1 ≤ (chunkLoop maxTok (splitLines body) 0
      { chunks := [], currentChunk := [], currentTokens := 0,
        chunkIndex := 0, startLine := 1, headingPath := [] }).currentChunk.length :=
    List.length_pos.mpr hne
  have hstart := hinv.start_eq
  have hlenle := hinv.len_le
  unfold chunkBody
  rw [if_pos hne]
  refine ⟨?_, ?_, by simp⟩
  · intro c' hc'
    rcases List.mem_append.mp hc' with hold | hnew
    · exact hinv.good c' hold
    · rw [List.mem_singleton] at hnew
      subst hnew
      have hg : ((splitLines body).take (splitLines body).length).drop
          ((chunkLoop maxTok (splitLines body) 0
            { chunks := [], currentChunk := [], currentTokens := 0,
              chunkIndex := 0, startLine := 1,
              headingPath := [] }).startLine - 1) =
          (chunkLoop maxTok (splitLines body) 0
            { chunks := [], currentChunk := [], currentTokens := 0,
              chunkIndex := 0, startLine := 1,
              headingPath := [] }).currentChunk := by
        rw [show (chunkLoop maxTok (splitLines body) 0
            { chunks := [], currentChunk := [], currentTokens := 0,
              chunkIndex := 0, startLine := 1,
              headingPath := [] }).startLine - 1 =
            (splitLines body).length - (chunkLoop maxTok (splitLines body) 0
            { chunks := [], currentChunk := [], currentTokens := 0,
              chunkIndex := 0, startLine := 1,
              headingPath := [] }).currentChunk.length by omega]
        exact hinv.curr_eq.symm
      refine ⟨?_, ?_, ?_, ?_, ?_, ?_⟩
      · simp only [hg]
        exact hne
      · simp only [hg]
      · simp only [hg]
      · simp only [hg]
        omega
      · simp only [hg]
        exact hinv.budget
      · simp only [hg]
        exact hinv.oversize
  · have hsnoc := spans_snoc
      (⟨(chunkLoop maxTok (splitLines body) 0
          { chunks := [], currentChunk := [], currentTokens := 0,
            chunkIndex := 0, startLine := 1, headingPath := [] }).chunkIndex,
        (chunkLoop maxTok (splitLines body) 0
          { chunks := [], currentChunk := [], currentTokens := 0,
            chunkIndex := 0, startLine := 1, headingPath := [] }).headingPath,
        joinNl (chunkLoop maxTok (splitLines body) 0
          { chunks := [], currentChunk := [], currentTokens := 0,
            chunkIndex := 0, startLine := 1, headingPath := [] }).currentChunk,
        tokenEstimate (joinNl (chunkLoop maxTok (splitLines body) 0
          { chunks := [], currentChunk := [], currentTokens := 0,
            chunkIndex := 0, startLine := 1, headingPath := [] }).currentChunk),
        (chunkLoop maxTok (splitLines body) 0
          { chunks := [], currentChunk := [], currentTokens := 0,
            chunkIndex := 0, startLine := 1, headingPath := [] }).startLine,
        (splitLines body).length⟩ : Chunk)
      hinv.cover (by simp; omega) (by simp; omega)
    simpa using hsnoc

theorem joinNl_append {a b : List String} (ha : a ≠ []) (hb : b ≠ []) :
    joinNl (a ++ b) = joinNl a ++ "\n" ++ joinNl b := by
  induction a with
  | nil => exact absurd rfl ha
  | cons x xs ih =>
    cases xs with
    | nil =>
      cases b with
      | nil => exact absurd rfl hb
      | cons y ys => rfl
    | cons x2 xs2 =>
      have h1 : joinNl (x :: x2 :: xs2 ++ b) =
          x ++ "\n" ++ joinNl (x2 :: xs2 ++ b) := rfl
      rw [List.cons_append] at h1 ⊢
      rw [h1, ih (by simp)]
      have h2 : joinNl (x :: x2 :: xs2) = x ++ "\n" ++ joinNl (x2 :: xs2) := rfl
      rw [h2]
      simp [String.append_assoc]

theorem spans_le {cs : List Chunk} : ∀ {a b : Nat}, spans cs a b → a ≤ b + 1 := by
  induction cs with
  | nil =>
    intro a b h
    simp only [spans] at h
    omega
  | cons c cs ih =>
    intro a b h
    obtain ⟨h1, h2, h3⟩ := h
    have := ih h3
    omega

theorem spans_start {cs : List Chunk} {c : Chunk} {a b : Nat}
    (h : spans (c :: cs) a b) : c.start_line = a := h.1

theorem spans_last {cs : List Chunk} : ∀ {a b : Nat}, spans cs a b → cs ≠ [] →
    (cs.getLast?.map (·.end_line)) = some b := by
  induction cs with
  | nil => intro a b _ hne; exact absurd rfl hne
  | cons c cs ih =>
    intro a b h _
    obtain ⟨h1, h2, h3⟩ := h
    cases hcs : cs with
    | nil =>
      subst hcs
      simp only [spans] at h3
      simp [List.getLast?]
      omega
    | cons c2 cs2 =>
      rw [List.getLast?_cons_cons]
      subst hcs
      exact ih h3 (by simp)

theorem spans_chain' {cs : List Chunk} : ∀ {a b : Nat}, spans cs a b →
    List.Chain' (fun c1 c2 => c2.start_line = c1.end_line + 1) cs := by
  induction cs with
  | nil => intro a b _; exact List.chain'_nil
  | cons c cs ih =>
    intro a b h
    obtain ⟨h1, h2, h3⟩ := h
    rw [List.chain'_cons']
    refine ⟨?_, ih h3⟩
    intro c2 hc2
    cases hcs : cs with
    | nil => subst hcs; cases hc2
    | cons c' cs' =>
      subst hcs
      simp only [List.head?_cons, Option.mem_def, Option.some.injEq] at hc2
      subst hc2
      exact h3.1

theorem spans_start_le_end {cs : List Chunk} : ∀ {a b : Nat}, spans cs a b →
    ∀ c ∈ cs, c.start_line ≤ c.end_line := by
  induction cs with
  | nil => intro a b _ c hc; cases hc
  | cons c0 cs ih =>
    intro a b h c hc
    obtain ⟨h1, h2, h3⟩ := h
    rcases List.mem_cons.mp hc with rfl | hc
    · omega
    · exact ih h3 c hc

theorem slice_split {α : Type} (l : List α) (a e b : Nat) (h1 : a ≤ e)
    (h2 : e ≤ b) :
    (l.take b).drop a = (l.take e).drop a ++ (l.take b).drop e := by
  have h3 : (l.take e).drop a = ((l.take b).drop a).take (e - a) := by
    rw [List.take_drop]
    rw [show a + (e - a) = e by omega]
    rw [List.take_take, Nat.min_eq_left h2]
  rw [h3]
  rw [show (l.take b).drop e = (l.take b).drop (a + (e - a)) by
    congr 1
    omega]
  exact (List.drop_take_append_drop _ _ _).symm

theorem string_data_inj {s t : String} (h : s.data = t.data) : s = t := by
  cases s
  cases t
  exact congrArg String.mk h

theorem joinNl_data : ∀ ls : List String,
    (joinNl ls).data = List.intercalate ['\n'] (ls.map String.data)
  | [] => rfl
  | [l] => by simp [joinNl, List.intercalate]
  | l :: l2 :: rest => by
    have h1 : joinNl (l :: l2 :: rest) = l ++ "\n" ++ joinNl (l2 :: rest) := rfl
    rw [h1]
    have h2 := joinNl_data (l2 :: rest)
    simp only [List.map_cons, List.intercalate, List.intersperse_cons_cons,
      List.flatten] at h2 ⊢
    rw [String.data_append, String.data_append, h2]
    simp

/-- Joining the split lines back with newlines restores the body. -/
theorem joinNl_splitLines (body : String) : joinNl (splitLines body) = body := by
  apply string_data_inj
  rw [joinNl_data]
  unfold splitLines
  rw [List.map_map]
  have hdata : (splitLines body).map String.data = body.data.splitOn '\n' := by
    unfold splitLines
    rw [List.map_map]
    have : String.data ∘ (fun cs : List Char => (⟨cs⟩ : String)) = id := by
      funext cs
      rfl
    rw [this, List.map_id]
  have : (String.data ∘ fun cs : List Char => (⟨cs⟩ : String)) = id := by
    funext cs
    rfl
  rw [this, List.map_id]
  exact List.intercalate_splitOn body.data '\n'

theorem splitOnP_no_sep {α : Type} [DecidableEq α] (p : α → Bool) :
    ∀ (xs : List α) (l : List α), l ∈ xs.splitOnP p → ∀ c ∈ l, p c = false := by
  intro xs
  induction xs with
  | nil =>
    intro l hl c hc
    simp only [List.splitOnP_nil, List.mem_singleton] at hl
    subst hl
    cases hc
  | cons x xs ih =>
    intro l hl c hc
    rw [List.splitOnP_cons] at hl
    by_cases hx : p x
    · rw [if_pos hx] at hl
      rcases List.mem_cons.mp hl with rfl | hl
      · cases hc
      · exact ih l hl c hc
    · rw [if_neg hx] at hl
      cases hsp : xs.splitOnP p with
      | nil => exact absurd hsp (List.splitOnP_ne_nil p xs)
      | cons h t =>
        rw [hsp] at hl
        simp only [List.modifyHead] at hl
        rcases List.mem_cons.mp hl with rfl | hl
        · rcases List.mem_cons.mp hc with rfl | hc
          · simpa using hx
          · exact ih h (by rw [hsp]; exact List.mem_cons_self h t) c hc
        · exact ih l (by rw [hsp]; exact List.mem_cons_of_mem h hl) c hc

/-- Lines produced by the newline split contain no newline. -/
theorem splitLines_no_newline (body : String) :
    ∀ l ∈ splitLines body, '\n' ∉ l.data := by
  intro l hl
  unfold splitLines at hl
  obtain ⟨cs, hcs, rfl⟩ := List.mem_map.mp hl
  intro hmem
  have := splitOnP_no_sep (· == '\n') body.data cs hcs '\n' hmem
  simp at this

/-- Splitting a newline-join of newline-free nonempty groups gives the
groups back. -/
theorem splitLines_joinNl {g : List String} (hne : g ≠ [])
    (hnl : ∀ l ∈ g, '\n' ∉ l.data) : splitLines (joinNl g) = g := by
  unfold splitLines
  rw [joinNl_data]
  rw [List.splitOn_intercalate (g.map String.data) '\n'
    (by
      intro l hl
      obtain ⟨x, hx, rfl⟩ := List.mem_map.mp hl
      exact hnl x hx)
    (by simpa using hne)]
  rw [List.map_map]
  have : ((fun cs : List Char => (⟨cs⟩ : String)) ∘ String.data) = id := by
    funext x
    rfl
  rw [this, List.map_id]

theorem joinNl_spans (lines : List String) (maxTok : Nat) :
    ∀ (cs : List Chunk) (a b : Nat), (∀ c ∈ cs, ChunkGood lines maxTok c) →
      spans cs a b → 1 ≤ a → b ≤ lines.length →
      joinNl (cs.map (·.text)) = joinNl ((lines.take b).drop (a - 1)) := by
  intro cs
  induction cs with
  | nil =>
    intro a b _ hsp _ _
    simp only [spans] at hsp
    rw [show a - 1 = b by omega]
    rw [List.drop_eq_nil_of_le (by rw [List.length_take]; omega)]
    rfl
  | cons c cs ih =>
    intro a b hgood hsp h1 hb
    obtain ⟨hstart, hse, hrest⟩ := hsp
    obtain ⟨hgne, htext, _, _, _, _⟩ := hgood c (List.mem_cons_self ..)
    have hce_le_b : c.end_line ≤ b := by
      have := spans_le hrest
      omega
    have hsplit : (lines.take b).drop (a - 1) =
        (lines.take c.end_line).drop (a - 1) ++ (lines.take b).drop c.end_line :=
      slice_split lines (a - 1) c.end_line b (by omega) hce_le_b
    have hgeq : (lines.take c.end_line).drop (c.start_line - 1) =
        (lines.take c.end_line).drop (a - 1) := by rw [hstart]
    cases hcs : cs with
    | nil =>
      subst hcs
      simp only [spans] at hrest
      have hbe : b = c.end_line := by omega
      show joinNl [c.text] = _
      rw [show joinNl [c.text] = c.text from rfl, htext, hgeq, hbe]
    | cons c2 cs2 =>
      subst hcs
      have hclt : c.end_line < b := by
        obtain ⟨h21, h22, h23⟩ := hrest
        have := spans_le h23
        omega
      have hrest2ne : (lines.take b).drop c.end_line ≠ [] := by
        rw [Ne, List.drop_eq_nil_iff, List.length_take]
        omega
      have hlhs : joinNl ((c :: c2 :: cs2).map (·.text)) =
          c.text ++ "\n" ++ joinNl ((c2 :: cs2).map (·.text)) := rfl
      rw [hlhs, hsplit,
        joinNl_append (hgeq ▸ hgne) hrest2ne, htext, hgeq]
      have hih := ih (c.end_line + 1) b
        (fun c' hc' => hgood c' (List.mem_cons_of_mem c hc')) hrest
        (by omega) hb
      rw [show c.end_line + 1 - 1 = c.end_line from rfl] at hih
      rw [hih]

/-- **C4 (amended).** The chunks of a body are contiguous and
non-overlapping — the first starts at line 1, each next chunk starts right
after its predecessor's last line, the last ends at the final line, and each
chunk's text is exactly its slice of the body's lines (no line split or
truncated).  Joining the chunk texts with a single newline between
consecutive chunks reproduces the body exactly (plain concatenation would
drop these separators).  The effective `max_tokens` always lies in
`[128, 4096]`. -/
theorem chunk_concat_contiguous (body : String) (maxTok : Nat)
    (requested : Option Int) :
    joinNl ((chunkBody body maxTok).map (·.text)) = body ∧
    chunkBody body maxTok ≠ [] ∧
    ((chunkBody body maxTok).head?.map (·.start_line)) = some 1 ∧
    ((chunkBody body maxTok).getLast?.map (·.end_line)) =
      some (splitLines body).length ∧
    List.Chain' (fun c1 c2 => c2.start_line = c1.end_line + 1)
      (chunkBody body maxTok) ∧
    (∀ c ∈ chunkBody body maxTok, c.start_line ≤ c.end_line ∧
      splitLines c.text =
        ((splitLines body).take c.end_line).drop (c.start_line - 1)) ∧
    128 ≤ clampMaxTokens requested ∧ clampMaxTokens requested ≤ 4096 := by
  obtain ⟨hgood, hspan, hne⟩ := chunkBody_spec body maxTok
  refine ⟨?_, hne, ?_, spans_last hspan hne, spans_chain' hspan, ?_, ?_, ?_⟩
  · have hj := joinNl_spans (splitLines body) maxTok (chunkBody body maxTok) 1
      (splitLines body).length hgood hspan (Nat.le_refl 1) (Nat.le_refl _)
    rw [hj]
    rw [show (1 : Nat) - 1 = 0 from rfl, List.drop_zero, List.take_length]
    exact joinNl_splitLines body
  · cases hcb : chunkBody body maxTok with
    | nil => exact absurd hcb hne
    | cons c t =>
      rw [hcb] at hspan
      simp only [List.head?_cons, Option.map_some]
      exact congrArg some (spans_start hspan)
  · intro c hc
    refine ⟨spans_start_le_end hspan c hc, ?_⟩
    obtain ⟨hgne, htext, _, _, _, _⟩ := hgood c hc
    rw [htext]
    apply splitLines_joinNl hgne
    intro l hl
    exact splitLines_no_newline body l
      (List.mem_of_mem_take (List.mem_of_mem_drop hl))
  · unfold clampMaxTokens
    exact le_min (by norm_num) (le_max_left _ _)
  · unfold clampMaxTokens
    exact min_le_left _ _

/-- **C5 (amended).** Every chunk either is a single line or the *sum* of
its lines' token estimates fits the budget; a line whose own estimate
exceeds the budget always sits alone in its chunk (and is never split,
since the chunk's text is exactly the joined original lines).  The recorded
`token_count_estimate` is however computed on the newline-joined text, so it
also counts the separators and can exceed `maxTokens` for multi-line
chunks. -/
theorem chunk_token_budget (body : String) (maxTok : Nat) :
    ∀ c ∈ chunkBody body maxTok,
      (c.start_line = c.end_line ∨ sumTok (splitLines c.text) ≤ maxTok) ∧
      (∀ l ∈ splitLines c.text, maxTok < tokenEstimate l →
        c.start_line = c.end_line) ∧
      c.token_count_estimate = tokenEstimate c.text := by
  obtain ⟨hgood, hspan, _⟩ := chunkBody_spec body maxTok
  intro c hc
  obtain ⟨hgne, htext, hest, hlen, hbudget, hover⟩ := hgood c hc
  have hsl : splitLines c.text =
      ((splitLines body).take c.end_line).drop (c.start_line - 1) := by
    rw [htext]
    apply splitLines_joinNl hgne
    intro l hl
    exact splitLines_no_newline body l
      (List.mem_of_mem_take (List.mem_of_mem_drop hl))
  have hsele := spans_start_le_end hspan c hc
  refine ⟨?_, ?_, ?_⟩
  · by_cases hse : c.start_line = c.end_line
    · exact Or.inl hse
    · right
      rw [hsl]
      exact hbudget (by omega)
  · intro l hl hbig
    rw [hsl] at hl
    have := hover l hl hbig
    omega
  · rw [hest, htext]

/-- A line of 513 `a`s: its own token estimate is 129, above the minimum
clamped budget of 128. -/
def lineC4 : String := ⟨List.replicate 513 'a'⟩

/-- Two oversized lines — chunked at budget 128 they land in two chunks. -/
def bodyC4 : String := lineC4 ++ "\n" ++ lineC4

set_option maxRecDepth 10000 in
/-- **C4 (counterexample).** Concatenating the chunk texts does *not*
reproduce the body (the newline between the two chunks is in neither
chunk's text), and a caller-supplied `max_tokens=0` becomes the default
1024 rather than the clamp boundary 128. -/
theorem chunk_concat_cex :
    String.join ((chunkBody bodyC4 128).map (·.text)) ≠ bodyC4 ∧
    clampMaxTokens (some 0) = 1024 :=
  ⟨by decide, rfl⟩

/-- 129 four-character lines: each line estimates to 1 token, but the
joined text of the first 128 lines estimates to 160 tokens. -/
def bodyC5 : String := joinNl (List.replicate 129 "aaaa")

set_option maxRecDepth 10000 in
/-- **C5 (counterexample).** At budget 128, the first chunk of `bodyC5`
holds 128 lines (not a single oversized line) yet its recorded
`token_count_estimate` is 160 > 128, because the estimate is computed on
the newline-joined text. -/
theorem chunk_estimate_cex :
    ¬ (∀ c ∈ chunkBody bodyC5 128,
        c.token_count_estimate ≤ 128 ∨ c.start_line = c.end_line) := by
  decide

/-- Witness for the amended C4 at a concrete two-line body. -/
theorem chunk_concat_contiguous_witness :
    joinNl ((chunkBody "a\nb" 5).map (·.text)) = "a\nb" ∧
    128 ≤ clampMaxTokens (some 0) ∧ clampMaxTokens (some 0) ≤ 4096 :=
  let h := chunk_concat_contiguous "a\nb" 5 (some 0)
  ⟨h.1, h.2.2.2.2.2.2⟩

/-- The single chunk produced for the one-line body `"hello"`. -/
def chunkW : Chunk :=
  { index := 0, heading_path := [], text := "hello",
    token_count_estimate := 2, start_line := 1, end_line := 1 }

/-- Witness for the amended C5 at the concrete body `"hello"`. -/
theorem chunk_token_budget_witness :
    chunkW ∈ chunkBody "hello" 128 ∧
    ((chunkW.start_line = chunkW.end_line ∨
        sumTok (splitLines chunkW.text) ≤ 128) ∧
     (∀ l ∈ splitLines chunkW.text, 128 < tokenEstimate l →
        chunkW.start_line = chunkW.end_line) ∧
     chunkW.token_count_estimate = tokenEstimate chunkW.text) :=
  ⟨by decide, chunk_token_budget "hello" 128 chunkW (by decide)⟩

end MdBrowse
